import Mathlib

/-!
Shallow embedding of the GQL query engine core (crates `gitql-ast`,
`gitql-engine`, `gitql-parser`) in Lean 4, together with theorems checking
the natural-language specification against the code.

Modelling conventions:
* Rust `i64` is embedded as `Int`; overflow checks (`checked_add`,
  `overflowing_mul`, the division/remainder overflow abort) are explicit,
  with `I64MIN`/`I64MAX` bounds.
* Rust `f64` values are represented by their `total_cmp` key: the
  sign-magnitude-adjusted bit pattern, an `Int` that is ordered exactly as
  `f64::total_cmp` orders the floats.  No claim below computes
  floating-point arithmetic or floating-point rendering; those operations
  are taken as parameters (`ExternalOps`), so every theorem holds for any
  choice of float semantics.  Note that `0f64` has total_cmp key `0`, so
  `as_float`'s default value is represented faithfully.
* Rust panics (slice-index panics, `unwrap` on `None`, integer division
  overflow aborts) are modelled as failures: `none` in `Option`-valued
  functions at the `Value` level, and `.error` strings prefixed with
  `panic:` in the executor, which otherwise mirrors `Result<_, String>`.
* `HashMap` values used by the executor are keyed by `String` and only
  accessed per-key (`entry` / `get` / `insert`); they are embedded as
  association lists (newest binding first) or as update functions, which
  have the same per-key observable behaviour.
-/

/-! ### Basic orderings (Rust `std::cmp::Ordering`, `i64::cmp`, `str::cmp`) -/

/-- Rust's three-way comparison on a linearly ordered payload, producing a
Lean `Ordering` (`lt`/`eq`/`gt` for Rust `Less`/`Equal`/`Greater`). -/
def linCmp {α : Type} [LinearOrder α] (a b : α) : Ordering :=
  if a < b then .lt else if a = b then .eq else .gt

/-- Rust `i64::cmp`. -/
def intCmp : Int → Int → Ordering := linCmp

/-- Rust `str::cmp`: byte-lexicographic on UTF-8, which coincides with
code-point lexicographic order, i.e. Lean's `String` order. -/
def strCmp : String → String → Ordering := linCmp

theorem linCmp_swap {α : Type} [LinearOrder α] (a b : α) :
    (linCmp a b).swap = linCmp b a := by
  unfold linCmp
  rcases lt_trichotomy a b with h | h | h
  · rw [if_pos h, if_neg (lt_asymm h),
      if_neg fun e => absurd (e ▸ h) (lt_irrefl _)]
    rfl
  · subst h; simp; rfl
  · rw [if_neg (lt_asymm h),
      if_neg fun e => absurd (h.trans_eq e) (lt_irrefl _), if_pos h]
    rfl

theorem linCmp_eq_iff {α : Type} [LinearOrder α] (a b : α) :
    linCmp a b = .eq ↔ a = b := by
  unfold linCmp
  rcases lt_trichotomy a b with h | h | h
  · simp [h, h.ne]
  · simp [h]
  · rw [if_neg (lt_asymm h),
      if_neg fun e => absurd (h.trans_eq e) (lt_irrefl _)]
    simp [(ne_of_gt h)]

theorem linCmp_lt_iff {α : Type} [LinearOrder α] (a b : α) :
    linCmp a b = .lt ↔ a < b := by
  unfold linCmp
  rcases lt_trichotomy a b with h | h | h
  · simp [h]
  · simp [h]
  · rw [if_neg (lt_asymm h),
      if_neg fun e => absurd (h.trans_eq e) (lt_irrefl _)]
    simp [not_lt_of_gt h]

theorem linCmp_gt_iff {α : Type} [LinearOrder α] (a b : α) :
    linCmp a b = .gt ↔ b < a := by
  unfold linCmp
  rcases lt_trichotomy a b with h | h | h
  · simp [h, not_lt_of_gt h]
  · simp [h]
  · rw [if_neg (lt_asymm h),
      if_neg fun e => absurd (h.trans_eq e) (lt_irrefl _)]
    simp [h]

theorem intCmp_swap (a b : Int) : (intCmp a b).swap = intCmp b a :=
  linCmp_swap a b

theorem intCmp_eq_iff (a b : Int) : intCmp a b = .eq ↔ a = b :=
  linCmp_eq_iff a b

theorem intCmp_lt_iff (a b : Int) : intCmp a b = .lt ↔ a < b :=
  linCmp_lt_iff a b

theorem intCmp_gt_iff (a b : Int) : intCmp a b = .gt ↔ b < a :=
  linCmp_gt_iff a b

/-! ### `DataType` (src/crates/gitql-ast/src/types.rs)

The composite constructors `Variant`, `Optional` and `Varargs` are omitted:
they never arise from `Value::data_type()` nor from the literal
`DataType::Integer` that the embedded code compares against, so no embedded
code path can reach them. -/

inductive DataType where
  | Any
  | Text
  | Integer
  | Float
  | Boolean
  | Date
  | Time
  | DateTime
  | Undefined
  | Null
deriving DecidableEq

def DataType.is_any : DataType → Bool
  | .Any => true
  | _ => false

def DataType.is_bool : DataType → Bool
  | .Boolean => true
  | _ => false

def DataType.is_int : DataType → Bool
  | .Integer => true
  | _ => false

def DataType.is_float : DataType → Bool
  | .Float => true
  | _ => false

def DataType.is_number (t : DataType) : Bool :=
  t.is_int || t.is_float

def DataType.is_text : DataType → Bool
  | .Text => true
  | _ => false

def DataType.is_time : DataType → Bool
  | .Time => true
  | _ => false

def DataType.is_date : DataType → Bool
  | .Date => true
  | _ => false

def DataType.is_datetime : DataType → Bool
  | .DateTime => true
  | _ => false

def DataType.is_null : DataType → Bool
  | .Null => true
  | _ => false

def DataType.is_undefined : DataType → Bool
  | .Undefined => true
  | _ => false

/-- The source's `PartialEq for DataType` (types.rs lines 58-140), restricted
to the simple constructors (the `Variant`/`Optional`/`Varargs` branches are
unreachable for them).  Note the `is_number && is_number` clause: it makes
`DataType::Integer == DataType::Float` return `true`. -/
def DataType.dtEq (a b : DataType) : Bool :=
  if a.is_any || b.is_any then true
  else if a.is_bool && b.is_bool then true
  else if a.is_int && b.is_int then true
  else if a.is_float && b.is_float then true
  else if a.is_number && b.is_number then true
  else if a.is_text && b.is_text then true
  else if a.is_date && b.is_date then true
  else if a.is_time && b.is_time then true
  else if a.is_datetime && b.is_datetime then true
  else if a.is_null && b.is_null then true
  else if a.is_undefined && b.is_undefined then true
  else false

/-! ### `Value` (src/crates/gitql-ast/src/value.rs) -/

/-- The Rust `Value` enum.  `Float`'s payload is the f64's `total_cmp` key
(see the file header); `Date`/`DateTime` payloads are epoch seconds. -/
inductive Value where
  | Integer (i : Int)
  | Float (bits : Int)
  | Text (s : String)
  | Boolean (b : Bool)
  | DateTime (t : Int)
  | Date (d : Int)
  | Time (t : String)
  | Null
deriving DecidableEq

/-- Floating-point arithmetic, int-to-float casting and the rendering of
floats and of chrono-formatted dates (date_utils.rs delegates to the
external `chrono` crate) are external to the embedded core; they are
supplied here as opaque-by-parameterisation operations on `total_cmp`
keys.  Theorems about the embedded code quantify over all choices. -/
structure ExternalOps where
  fadd : Int → Int → Int
  fsub : Int → Int → Int
  fmul : Int → Int → Int
  fdiv : Int → Int → Int
  fmod : Int → Int → Int
  intToFloat : Int → Int
  displayFloat : Int → String
  displayDate : Int → String
  displayDateTime : Int → String

/-- A concrete (arbitrary) instantiation of `ExternalOps`, used to
evaluate the model on closed inputs. -/
def trivialOps : ExternalOps :=
  ⟨fun _ _ => 0, fun _ _ => 0, fun _ _ => 0, fun _ _ => 0, fun _ _ => 0,
   fun _ => 0, fun _ => "", fun _ => "", fun _ => ""⟩

def Value.dataType : Value → DataType
  | .Integer _ => .Integer
  | .Float _ => .Float
  | .Text _ => .Text
  | .Boolean _ => .Boolean
  | .DateTime _ => .DateTime
  | .Date _ => .Date
  | .Time _ => .Time
  | .Null => .Null

def Value.as_int : Value → Int
  | .Integer n => n
  | _ => 0

def Value.as_float : Value → Int
  | .Float n => n
  | _ => 0

def Value.as_text : Value → String
  | .Text s => s
  | _ => ""

def Value.as_bool : Value → Bool
  | .Boolean b => b
  | _ => false

def Value.as_date_time : Value → Int
  | .DateTime d => d
  | _ => 0

def Value.as_date : Value → Int
  | .Date d => d
  | _ => 0

def Value.as_time : Value → String
  | .Time t => t
  | _ => ""

/-- The `Display` implementation for `Value` (value.rs lines 21-34).
Lean's `toString : Int → String` renders exactly like Rust's `i64`
`Display` (decimal, `-` sign). -/
def Value.display (O : ExternalOps) : Value → String
  | .Integer i => toString i
  | .Float f => O.displayFloat f
  | .Text s => s
  | .Boolean b => if b then "true" else "false"
  | .DateTime dt => O.displayDateTime dt
  | .Date d => O.displayDate d
  | .Time t => t
  | .Null => "Null"

/-- `Value::compare` (value.rs lines 57-86).  Note every branch compares
`other` against `self`, i.e. the resulting ordering is reversed. -/
def Value.compare (a b : Value) : Ordering :=
  if a.dataType.is_int && b.dataType.is_int then intCmp b.as_int a.as_int
  else if a.dataType.is_float && b.dataType.is_float then
    intCmp b.as_float a.as_float
  else if a.dataType.is_text && b.dataType.is_text then
    strCmp b.as_text a.as_text
  else if a.dataType.is_datetime && b.dataType.is_datetime then
    intCmp b.as_date_time a.as_date_time
  else if a.dataType.is_date && b.dataType.is_date then
    intCmp b.as_date a.as_date
  else if a.dataType.is_time && b.dataType.is_time then
    strCmp b.as_time a.as_time
  else Ordering.eq

def I64MIN : Int := -(2 ^ 63)
def I64MAX : Int := 2 ^ 63 - 1

/-- Rust `i64::checked_add`. -/
def checkedAdd (a b : Int) : Option Int :=
  if I64MIN ≤ a + b ∧ a + b ≤ I64MAX then some (a + b) else none

/-- Rust `i64::checked_sub`. -/
def checkedSub (a b : Int) : Option Int :=
  if I64MIN ≤ a - b ∧ a - b ≤ I64MAX then some (a - b) else none

/-- Rust `/` on `i64`; `none` models the panic (divisor zero, or the
`i64::MIN / -1` overflow abort, the only overflowing case). `Int.tdiv` is
truncation toward zero, as in Rust. -/
def rustI64Div (a b : Int) : Option Int :=
  if b = 0 then none
  else if a = I64MIN ∧ b = -1 then none
  else some (a.tdiv b)

/-- Rust `%` on `i64`; `none` models the panic (divisor zero, or the
`i64::MIN % -1` overflow abort). `Int.tmod` has the sign of the dividend,
as in Rust. -/
def rustI64Mod (a b : Int) : Option Int :=
  if b = 0 then none
  else if a = I64MIN ∧ b = -1 then none
  else some (a.tmod b)

/-- `Value::plus` (value.rs lines 88-119). -/
def Value.plus (O : ExternalOps) (a b : Value) : Except String Value :=
  if a.dataType.is_int && b.dataType.is_int then
    match checkedAdd a.as_int b.as_int with
    | some s => .ok (.Integer s)
    | none =>
      .error ("Attempt to compute `" ++ toString a.as_int ++ " + " ++
        toString b.as_int ++ "`, which would overflow")
  else if a.dataType.is_float && b.dataType.is_float then
    .ok (.Float (O.fadd a.as_float b.as_float))
  else if a.dataType.is_int && b.dataType.is_float then
    .ok (.Float (O.fadd (O.intToFloat a.as_int) b.as_float))
  else if a.dataType.is_float && b.dataType.is_int then
    .ok (.Float (O.fadd a.as_float (O.intToFloat b.as_int)))
  else .ok (.Integer 0)

/-- `Value::minus` (value.rs lines 121-152). -/
def Value.minus (O : ExternalOps) (a b : Value) : Except String Value :=
  if a.dataType.is_int && b.dataType.is_int then
    match checkedSub a.as_int b.as_int with
    | some s => .ok (.Integer s)
    | none =>
      .error ("Attempt to compute `" ++ toString a.as_int ++ " - " ++
        toString b.as_int ++ "`, which would overflow")
  else if a.dataType.is_float && b.dataType.is_float then
    .ok (.Float (O.fsub a.as_float b.as_float))
  else if a.dataType.is_int && b.dataType.is_float then
    .ok (.Float (O.fsub (O.intToFloat a.as_int) b.as_float))
  else if a.dataType.is_float && b.dataType.is_int then
    .ok (.Float (O.fsub a.as_float (O.intToFloat b.as_int)))
  else .ok (.Integer 0)

/-- `Value::mul` (value.rs lines 154-184); `overflowing_mul`'s wrapped
value is only used when no overflow occurred, where it is the exact
product. -/
def Value.mul (O : ExternalOps) (a b : Value) : Except String Value :=
  if a.dataType.is_int && b.dataType.is_int then
    if I64MIN ≤ a.as_int * b.as_int ∧ a.as_int * b.as_int ≤ I64MAX then
      .ok (.Integer (a.as_int * b.as_int))
    else
      .error ("Attempt to compute `" ++ toString a.as_int ++ " * " ++
        toString b.as_int ++ "`, which would overflow")
  else if a.dataType.is_float && b.dataType.is_float then
    .ok (.Float (O.fmul a.as_float b.as_float))
  else if a.dataType.is_int && b.dataType.is_float then
    .ok (.Float (O.fmul b.as_float (O.intToFloat a.as_int)))
  else if a.dataType.is_float && b.dataType.is_int then
    .ok (.Float (O.fmul a.as_float (O.intToFloat b.as_int)))
  else .ok (.Integer 0)

/-- `Value::div` (value.rs lines 186-214); the outer `Option` models the
Rust abort of `/` at `i64::MIN / -1`.  The zero-divisor guard compares
`other_type == DataType::Integer` with the source's `PartialEq` (`dtEq`),
under which `Float == Integer` holds. -/
def Value.div (O : ExternalOps) (a b : Value) : Option (Except String Value) :=
  if DataType.dtEq b.dataType .Integer && b.as_int == 0 then
    some (.error ("Attempt to divide `" ++ a.display O ++ "` by zero"))
  else if a.dataType.is_int && b.dataType.is_int then
    match rustI64Div a.as_int b.as_int with
    | some q => some (.ok (.Integer q))
    | none => none
  else if a.dataType.is_float && b.dataType.is_float then
    some (.ok (.Float (O.fdiv a.as_float b.as_float)))
  else if a.dataType.is_int && b.dataType.is_float then
    some (.ok (.Float (O.fdiv (O.intToFloat a.as_int) b.as_float)))
  else if a.dataType.is_float && b.dataType.is_int then
    some (.ok (.Float (O.fdiv a.as_float (O.intToFloat b.as_int))))
  else some (.ok (.Integer 0))

/-- `Value::modulus` (value.rs lines 216-247); the guard here uses
`other_type.is_int()`, not `PartialEq`. -/
def Value.modulus (O : ExternalOps) (a b : Value) :
    Option (Except String Value) :=
  if b.dataType.is_int && b.as_int == 0 then
    some (.error ("Attempt to calculate the remainder of `" ++ a.display O ++
      "` with a divisor of zero"))
  else if a.dataType.is_int && b.dataType.is_int then
    match rustI64Mod a.as_int b.as_int with
    | some q => some (.ok (.Integer q))
    | none => none
  else if a.dataType.is_float && b.dataType.is_float then
    some (.ok (.Float (O.fmod a.as_float b.as_float)))
  else if a.dataType.is_int && b.dataType.is_float then
    some (.ok (.Float (O.fmod (O.intToFloat a.as_int) b.as_float)))
  else if a.dataType.is_float && b.dataType.is_int then
    some (.ok (.Float (O.fmod a.as_float (O.intToFloat b.as_int))))
  else some (.ok (.Integer 0))

/-! ### Theorems about `Value::compare` and arithmetic (claims C9, C6, C10) -/

/-- C9: `Value::compare` is reversed: for same-type comparable pairs
`a.compare(b)` is the natural three-way comparison of `b` against `a`
(so e.g. `Integer(1).compare(Integer(2))` is `Greater`), `compare(a,b)`
is always the reverse of `compare(b,a)`, and pairs of differing types, or
two Booleans, or two Nulls, compare `Equal`. -/
theorem C9_compare_reversed :
    (∀ a b : Value, a.compare b = (b.compare a).swap)
    ∧ (∀ x y : Int,
        (Value.Integer x).compare (Value.Integer y) = intCmp y x)
    ∧ (∀ x y : Int, (Value.Float x).compare (Value.Float y) = intCmp y x)
    ∧ (∀ x y : String, (Value.Text x).compare (Value.Text y) = strCmp y x)
    ∧ (∀ x y : Int, (Value.Date x).compare (Value.Date y) = intCmp y x)
    ∧ (∀ x y : String, (Value.Time x).compare (Value.Time y) = strCmp y x)
    ∧ (∀ x y : Int,
        (Value.DateTime x).compare (Value.DateTime y) = intCmp y x)
    ∧ (∀ x y : Int, x < y →
        (Value.Integer x).compare (Value.Integer y) = .gt)
    ∧ (∀ a b : Value, a.dataType ≠ b.dataType → a.compare b = .eq)
    ∧ (∀ p q : Bool, (Value.Boolean p).compare (Value.Boolean q) = .eq)
    ∧ (Value.Null.compare Value.Null = .eq) := by
  refine ⟨?_, ?_, ?_, ?_, ?_, ?_, ?_, ?_, ?_, ?_, ?_⟩
  · intro a b
    cases a <;> cases b <;>
      simp [Value.compare, Value.dataType, DataType.is_int, DataType.is_float,
        DataType.is_text, DataType.is_datetime, DataType.is_date,
        DataType.is_time, intCmp, strCmp] <;>
      first
        | rfl
        | exact (linCmp_swap _ _).symm
  · intro x y
    simp [Value.compare, Value.dataType, DataType.is_int, Value.as_int]
  · intro x y
    simp [Value.compare, Value.dataType, DataType.is_int, DataType.is_float,
      Value.as_float]
  · intro x y
    simp [Value.compare, Value.dataType, DataType.is_int, DataType.is_float,
      DataType.is_text, Value.as_text]
  · intro x y
    simp [Value.compare, Value.dataType, DataType.is_int, DataType.is_float,
      DataType.is_text, DataType.is_datetime, DataType.is_date, Value.as_date]
  · intro x y
    simp [Value.compare, Value.dataType, DataType.is_int, DataType.is_float,
      DataType.is_text, DataType.is_datetime, DataType.is_date,
      DataType.is_time, Value.as_time]
  · intro x y
    simp [Value.compare, Value.dataType, DataType.is_int, DataType.is_float,
      DataType.is_text, DataType.is_datetime, Value.as_date_time]
  · intro x y h
    have : intCmp y x = .gt := (linCmp_gt_iff y x).mpr h
    simp [Value.compare, Value.dataType, DataType.is_int, Value.as_int, this]
  · intro a b h
    cases a <;> cases b <;>
      simp_all [Value.compare, Value.dataType, DataType.is_int,
        DataType.is_float, DataType.is_text, DataType.is_datetime,
        DataType.is_date, DataType.is_time]
  · intro p q
    simp [Value.compare, Value.dataType, DataType.is_int, DataType.is_float,
      DataType.is_text, DataType.is_datetime, DataType.is_date,
      DataType.is_time]
  · simp [Value.compare, Value.dataType, DataType.is_int, DataType.is_float,
      DataType.is_text, DataType.is_datetime, DataType.is_date,
      DataType.is_time]

/-- Witness for C9: the implication clauses instantiated at concrete
values. -/
theorem C9_compare_reversed_witness :
    (Value.Integer 1).compare (Value.Integer 2) = .gt
    ∧ (Value.Integer 1).compare (Value.Boolean true) = .eq := by
  refine ⟨C9_compare_reversed.2.2.2.2.2.2.2.1 1 2 (by decide), ?_⟩
  exact C9_compare_reversed.2.2.2.2.2.2.2.2.1 _ _ (by decide)

/-- C6 counterexample: the claim says every pair of Integer operands with a
non-zero divisor yields `Ok`, but `i64::MIN / -1` (and `i64::MIN % -1`)
overflow and abort (modelled as `none`), so no `Ok` is returned. -/
theorem C6_counterexample :
    Value.div trivialOps (.Integer I64MIN) (.Integer (-1)) = none
    ∧ Value.modulus trivialOps (.Integer I64MIN) (.Integer (-1)) = none
    ∧ ∀ q : Int,
        Value.div trivialOps (.Integer I64MIN) (.Integer (-1)) ≠
          some (.ok (.Integer q)) := by
  refine ⟨by rfl, by rfl, fun q h => ?_⟩
  rw [show Value.div trivialOps (.Integer I64MIN) (.Integer (-1)) = none
      from rfl] at h
  exact Option.noConfusion h

/-- C6 (amended): for every value `v`, `v.div(w)` and `v.modulus(w)` return
the divide-by-zero/remainder-by-zero error whenever `w` is `Integer(0)`
(with the claimed message text for `div`); conversely, for Integer operands
with a non-zero divisor — excluding the aborting pair
`(i64::MIN, -1)` — `div` returns `Ok(Integer(truncated quotient))` and
`modulus` returns `Ok(Integer(remainder))`. -/
theorem C6_div_modulus_by_zero (O : ExternalOps) (v : Value) :
    (Value.div O v (.Integer 0) =
      some (.error ("Attempt to divide `" ++ v.display O ++ "` by zero")))
    ∧ (Value.modulus O v (.Integer 0) =
      some (.error ("Attempt to calculate the remainder of `" ++
        v.display O ++ "` with a divisor of zero")))
    ∧ (∀ x y : Int, I64MIN ≤ x → x ≤ I64MAX → I64MIN ≤ y → y ≤ I64MAX →
        y ≠ 0 → ¬(x = I64MIN ∧ y = -1) →
        Value.div O (.Integer x) (.Integer y) =
          some (.ok (.Integer (x.tdiv y)))
        ∧ Value.modulus O (.Integer x) (.Integer y) =
          some (.ok (.Integer (x.tmod y)))) := by
  refine ⟨?_, ?_, ?_⟩
  · simp [Value.div, Value.dataType, DataType.dtEq, DataType.is_any,
      DataType.is_bool, DataType.is_int, DataType.is_float,
      DataType.is_number, Value.as_int]
  · simp [Value.modulus, Value.dataType, DataType.is_int, Value.as_int]
  · intro x y _ _ _ _ hy hmin
    constructor
    · simp [Value.div, Value.dataType, DataType.dtEq, DataType.is_any,
        DataType.is_bool, DataType.is_int, DataType.is_float,
        DataType.is_number, Value.as_int, hy, rustI64Div, hmin]
    · simp [Value.modulus, Value.dataType, DataType.is_int, Value.as_int,
        hy, rustI64Mod, hmin]

/-- Witness for C6: concrete evaluations of both the error and the Ok
cases. -/
theorem C6_div_modulus_by_zero_witness :
    Value.div trivialOps (.Integer 1) (.Integer 0) =
      some (.error "Attempt to divide `1` by zero")
    ∧ Value.div trivialOps (.Integer 7) (.Integer 2) =
      some (.ok (.Integer 3))
    ∧ Value.modulus trivialOps (.Integer 7) (.Integer 2) =
      some (.ok (.Integer 1)) := by
  refine ⟨(C6_div_modulus_by_zero trivialOps (.Integer 1)).1, ?_, ?_⟩
  · exact ((C6_div_modulus_by_zero trivialOps (.Integer 0)).2.2 7 2
      (by decide) (by decide) (by decide) (by decide) (by decide)
      (by decide)).1
  · exact ((C6_div_modulus_by_zero trivialOps (.Integer 0)).2.2 7 2
      (by decide) (by decide) (by decide) (by decide) (by decide)
      (by decide)).2

/-- C10 counterexample: the claim says `div` returns `Ok(Integer(0))` for
every no-rule pair whose right operand is not `Integer(0)`, but a `Float`
right operand satisfies `other_type == DataType::Integer` (via the
`is_number` clause of `PartialEq for DataType`) and `as_int()` of a Float
is `0`, so the zero-divisor guard fires and `div` returns the
divide-by-zero error instead. -/
theorem C10_counterexample :
    Value.div trivialOps (.Text "a") (.Float 0) =
      some (.error "Attempt to divide `a` by zero")
    ∧ Value.div trivialOps (.Text "a") (.Float 0) ≠
      some (.ok (.Integer 0)) := by
  refine ⟨by rfl, fun h => ?_⟩
  rw [show Value.div trivialOps (.Text "a") (.Float 0) =
      some (.error "Attempt to divide `a` by zero") from rfl] at h
  simp at h

/-- C10 (amended): for every pair of values for which no arithmetic rule
applies (the operands are not both numeric), `plus`, `minus` and `mul`
return `Ok(Integer(0))`; `modulus` does too provided the right operand is
not `Integer(0)`; `div` does provided the right operand is not
`Integer(0)` and also not a `Float` — a `Float` right operand instead
trips the zero-divisor guard and yields the divide-by-zero error. -/
theorem C10_untyped_arithmetic_fallback (O : ExternalOps) (a b : Value)
    (h : ¬(a.dataType.is_number = true ∧ b.dataType.is_number = true)) :
    Value.plus O a b = .ok (.Integer 0)
    ∧ Value.minus O a b = .ok (.Integer 0)
    ∧ Value.mul O a b = .ok (.Integer 0)
    ∧ (b ≠ .Integer 0 → Value.modulus O a b = some (.ok (.Integer 0)))
    ∧ (b.dataType.is_float = false → b ≠ .Integer 0 →
        Value.div O a b = some (.ok (.Integer 0)))
    ∧ (b.dataType.is_float = true →
        Value.div O a b =
          some (.error ("Attempt to divide `" ++ a.display O ++
            "` by zero"))) := by
  cases a <;> cases b <;>
    simp_all [Value.plus, Value.minus, Value.mul, Value.div, Value.modulus,
      Value.dataType, Value.as_int, Value.as_float, DataType.dtEq,
      DataType.is_any, DataType.is_bool, DataType.is_int, DataType.is_float,
      DataType.is_number, DataType.is_text, DataType.is_date,
      DataType.is_time, DataType.is_datetime, DataType.is_null,
      DataType.is_undefined]

/-- Witness for C10: a `Text`/`Boolean` pair evaluated through the amended
theorem. -/
theorem C10_untyped_arithmetic_fallback_witness :
    Value.plus trivialOps (.Text "a") (.Boolean true) = .ok (.Integer 0)
    ∧ Value.div trivialOps (.Text "a") (.Boolean true) =
      some (.ok (.Integer 0)) := by
  refine ⟨(C10_untyped_arithmetic_fallback trivialOps (.Text "a")
    (.Boolean true) (by decide)).1, ?_⟩
  exact (C10_untyped_arithmetic_fallback trivialOps (.Text "a")
    (.Boolean true) (by decide)).2.2.2.2.1 (by decide) (by decide)

/-! ### Row / Group / GitQLObject (src/crates/gitql-ast/src/object.rs) -/

/-- In-memory representation of the list of `Value` in one row. -/
structure Row where
  values : List Value
deriving DecidableEq

/-- In-memory representation of the rows of one group (source name `Group`,
renamed here because Mathlib already has a `Group` class). -/
structure GQLGroup where
  rows : List Row
deriving DecidableEq

/-- The GitQL object: titles plus groups of rows. -/
structure GitQLObject where
  titles : List String
  groups : List GQLGroup
deriving DecidableEq

/-- `GitQLObject::flat`: concatenate all groups' rows into a single main
group (in group order). -/
def GitQLObject.flat (obj : GitQLObject) : GitQLObject :=
  { obj with groups := [⟨(obj.groups.map GQLGroup.rows).flatten⟩] }

/-- `Vec::position`-style first index of a string in a list
(`titles.iter().position(|r| r.eq(&name))`). -/
def aIdxOf? (k : String) : List String → Option Nat
  | [] => none
  | x :: xs => if x == k then some 0 else (aIdxOf? k xs).map (· + 1)

/-! ### Aggregation functions (src/crates/gitql-ast/src/aggregation.rs) -/

/-- `aggregation_max`: scans the whole group starting from row 0's value,
replacing the accumulator whenever `max_value.compare(field_value)` is
`Greater` (which, by `compare`'s reversed ordering, means the field value
is larger).  `none` models the source's `unwrap` panics (missing column or
missing cell). -/
def aggregation_max (field_name : String) (titles : List String)
    (objects : GQLGroup) : Option Value := do
  let column_index ← aIdxOf? field_name titles
  let first ← objects.rows.head?
  let init ← first.values[column_index]?
  objects.rows.foldlM (fun mx row => do
    let fv ← row.values[column_index]?
    pure (if mx.compare fv = Ordering.gt then fv else mx)) init

/-- `aggregation_min`: same scan, replacing whenever
`min_value.compare(field_value)` is `Less` (the field value is smaller). -/
def aggregation_min (field_name : String) (titles : List String)
    (objects : GQLGroup) : Option Value := do
  let column_index ← aIdxOf? field_name titles
  let first ← objects.rows.head?
  let init ← first.values[column_index]?
  objects.rows.foldlM (fun mn row => do
    let fv ← row.values[column_index]?
    pure (if mn.compare fv = Ordering.lt then fv else mn)) init

/-- Two's-complement wrap-around of an unbounded integer into `i64`. -/
def wrapI64 (n : Int) : Int := (n + 2 ^ 63) % 2 ^ 64 - 2 ^ 63

/-- `aggregation_sum`; `sum += as_int` wraps around in release builds,
modelled by `wrapI64`. -/
def aggregation_sum (field_name : String) (titles : List String)
    (objects : GQLGroup) : Option Value := do
  let column_index ← aIdxOf? field_name titles
  let s ← objects.rows.foldlM (fun s row => do
    let fv ← row.values[column_index]?
    pure (wrapI64 (s + fv.as_int))) (0 : Int)
  pure (Value.Integer s)

/-- `aggregation_average`; the final `sum / count` panics on an empty
group (division by zero), modelled as `none`. -/
def aggregation_average (field_name : String) (titles : List String)
    (objects : GQLGroup) : Option Value := do
  let count : Int := objects.rows.length
  let column_index ← aIdxOf? field_name titles
  let s ← objects.rows.foldlM (fun s row => do
    let fv ← row.values[column_index]?
    pure (wrapI64 (s + fv.as_int))) (0 : Int)
  if count = 0 then none else pure (Value.Integer (s.tdiv count))

/-- `aggregation_count`. -/
def aggregation_count (_field_name : String) (_titles : List String)
    (objects : GQLGroup) : Option Value :=
  some (.Integer objects.rows.length)

/-- The `AGGREGATIONS` registry (name → implementation). -/
def AGGREGATIONS (name : String) :
    Option (String → List String → GQLGroup → Option Value) :=
  if name = "max" then some aggregation_max
  else if name = "min" then some aggregation_min
  else if name = "sum" then some aggregation_sum
  else if name = "avg" then some aggregation_average
  else if name = "count" then some aggregation_count
  else none

/-! ### Claim C3: MIN/MAX aggregates over Integer columns -/

theorem foldl_min_le_init (ks : List Int) (m : Int) :
    ks.foldl min m ≤ m := by
  induction ks generalizing m with
  | nil => simp
  | cons k ks ih =>
    simp only [List.foldl_cons]
    exact le_trans (ih (min m k)) (min_le_left m k)

theorem foldl_min_le_mem (ks : List Int) (m : Int) :
    ∀ x ∈ ks, ks.foldl min m ≤ x := by
  induction ks generalizing m with
  | nil => simp
  | cons k ks ih =>
    intro x hx
    simp only [List.foldl_cons]
    rcases List.mem_cons.mp hx with rfl | hx
    · exact le_trans (foldl_min_le_init ks (min m x)) (min_le_right m x)
    · exact ih (min m k) x hx

theorem foldl_min_mem (ks : List Int) (m : Int) :
    ks.foldl min m = m ∨ ks.foldl min m ∈ ks := by
  induction ks generalizing m with
  | nil => simp
  | cons k ks ih =>
    simp only [List.foldl_cons]
    rcases ih (min m k) with h | h
    · rcases le_or_lt m k with hmk | hmk
      · left; rw [h, min_eq_left hmk]
      · right; rw [h, min_eq_right hmk.le]; exact List.mem_cons_self _ _
    · right; exact List.mem_cons_of_mem _ h

theorem foldl_max_init_le (ks : List Int) (m : Int) :
    m ≤ ks.foldl max m := by
  induction ks generalizing m with
  | nil => simp
  | cons k ks ih =>
    simp only [List.foldl_cons]
    exact le_trans (le_max_left m k) (ih (max m k))

theorem foldl_max_mem_le (ks : List Int) (m : Int) :
    ∀ x ∈ ks, x ≤ ks.foldl max m := by
  induction ks generalizing m with
  | nil => simp
  | cons k ks ih =>
    intro x hx
    simp only [List.foldl_cons]
    rcases List.mem_cons.mp hx with rfl | hx
    · exact le_trans (le_max_right m x) (foldl_max_init_le ks (max m x))
    · exact ih (max m k) x hx

theorem foldl_max_mem (ks : List Int) (m : Int) :
    ks.foldl max m = m ∨ ks.foldl max m ∈ ks := by
  induction ks generalizing m with
  | nil => simp
  | cons k ks ih =>
    simp only [List.foldl_cons]
    rcases ih (max m k) with h | h
    · rcases le_or_lt k m with hkm | hkm
      · left; rw [h, max_eq_left hkm]
      · right; rw [h, max_eq_right hkm.le]; exact List.mem_cons_self _ _
    · right; exact List.mem_cons_of_mem _ h

theorem min_fold_step (m k : Int) :
    (if (Value.Integer m).compare (Value.Integer k) = Ordering.lt
      then Value.Integer k else Value.Integer m) = Value.Integer (min m k) := by
  have hc : (Value.Integer m).compare (Value.Integer k) = intCmp k m := by
    simp [Value.compare, Value.dataType, DataType.is_int, Value.as_int]
  rw [hc]
  rcases lt_or_le k m with h | h
  · rw [if_pos ((intCmp_lt_iff k m).mpr h), min_eq_right h.le]
  · rw [if_neg (by rw [intCmp_lt_iff]; omega), min_eq_left h]

theorem max_fold_step (m k : Int) :
    (if (Value.Integer m).compare (Value.Integer k) = Ordering.gt
      then Value.Integer k else Value.Integer m) = Value.Integer (max m k) := by
  have hc : (Value.Integer m).compare (Value.Integer k) = intCmp k m := by
    simp [Value.compare, Value.dataType, DataType.is_int, Value.as_int]
  rw [hc]
  rcases lt_or_le m k with h | h
  · rw [if_pos ((intCmp_gt_iff k m).mpr h), max_eq_right h.le]
  · rw [if_neg (by rw [intCmp_gt_iff]; omega), max_eq_left h]

theorem foldlM_min_rows (i : Nat) (rows : List Row) (ks : List Int)
    (h : rows.map (fun r => r.values[i]?) =
      ks.map (fun k => some (Value.Integer k))) (m : Int) :
    (rows.foldlM (fun mn row => do
        let fv ← row.values[i]?
        pure (if mn.compare fv = Ordering.lt then fv else mn))
      (Value.Integer m) : Option Value)
    = some (Value.Integer (ks.foldl min m)) := by
  induction rows generalizing ks m with
  | nil =>
    cases ks with
    | nil => simp
    | cons k ks => simp at h
  | cons r rows ih =>
    cases ks with
    | nil => simp at h
    | cons k ks =>
      simp only [List.map_cons, List.cons.injEq] at h
      obtain ⟨h1, h2⟩ := h
      simp only [List.foldlM_cons, h1, Option.bind_eq_bind,
        Option.some_bind, List.foldl_cons]
      rw [min_fold_step]
      exact ih ks h2 (min m k)

theorem foldlM_max_rows (i : Nat) (rows : List Row) (ks : List Int)
    (h : rows.map (fun r => r.values[i]?) =
      ks.map (fun k => some (Value.Integer k))) (m : Int) :
    (rows.foldlM (fun mx row => do
        let fv ← row.values[i]?
        pure (if mx.compare fv = Ordering.gt then fv else mx))
      (Value.Integer m) : Option Value)
    = some (Value.Integer (ks.foldl max m)) := by
  induction rows generalizing ks m with
  | nil =>
    cases ks with
    | nil => simp
    | cons k ks => simp at h
  | cons r rows ih =>
    cases ks with
    | nil => simp at h
    | cons k ks =>
      simp only [List.map_cons, List.cons.injEq] at h
      obtain ⟨h1, h2⟩ := h
      simp only [List.foldlM_cons, h1, Option.bind_eq_bind,
        Option.some_bind, List.foldl_cons]
      rw [max_fold_step]
      exact ih ks h2 (max m k)

/-- C3: over a non-empty group whose `field_name` column holds the
integers `ks`, `aggregation_min` returns the smallest of `ks` and
`aggregation_max` the largest (the `Ordering::Less` replacement condition
of `aggregation_min` composes with `Value::compare`'s reversed ordering to
select the minimum). -/
theorem C3_aggregation_min_max (field_name : String) (titles : List String)
    (g : GQLGroup) (i : Nat) (ks : List Int)
    (hidx : aIdxOf? field_name titles = some i)
    (hks : g.rows.map (fun r => r.values[i]?) =
      ks.map (fun k => some (Value.Integer k)))
    (hne : g.rows ≠ []) :
    (∃ m, aggregation_min field_name titles g = some (.Integer m)
      ∧ m ∈ ks ∧ ∀ x ∈ ks, m ≤ x)
    ∧ (∃ m, aggregation_max field_name titles g = some (.Integer m)
      ∧ m ∈ ks ∧ ∀ x ∈ ks, x ≤ m) := by
  cases hrows : g.rows with
  | nil => exact absurd hrows hne
  | cons r0 rest =>
    cases hksc : ks with
    | nil => rw [hrows, hksc] at hks; simp at hks
    | cons k0 krest =>
      rw [hrows, hksc] at hks
      simp only [List.map_cons, List.cons.injEq] at hks
      obtain ⟨h0, hrest⟩ := hks
      constructor
      · refine ⟨(k0 :: krest).foldl min k0, ?_, ?_, ?_⟩
        · unfold aggregation_min
          rw [hidx, hrows]
          simp only [List.head?_cons, Option.bind_eq_bind, Option.some_bind,
            h0]
          have := foldlM_min_rows i (r0 :: rest) (k0 :: krest)
            (by simp [h0, hrest]) k0
          simpa using this
        · rcases foldl_min_mem (k0 :: krest) k0 with h | h
          · rw [h]; exact List.mem_cons_self _ _
          · exact h
        · exact foldl_min_le_mem (k0 :: krest) k0
      · refine ⟨(k0 :: krest).foldl max k0, ?_, ?_, ?_⟩
        · unfold aggregation_max
          rw [hidx, hrows]
          simp only [List.head?_cons, Option.bind_eq_bind, Option.some_bind,
            h0]
          have := foldlM_max_rows i (r0 :: rest) (k0 :: krest)
            (by simp [h0, hrest]) k0
          simpa using this
        · rcases foldl_max_mem (k0 :: krest) k0 with h | h
          · rw [h]; exact List.mem_cons_self _ _
          · exact h
        · exact foldl_max_mem_le (k0 :: krest) k0

/-- Witness for C3: the aggregates over the concrete column `[3, 1, 2]`. -/
theorem C3_aggregation_min_max_witness :
    (∃ m, aggregation_min "f" ["f"]
        ⟨[⟨[.Integer 3]⟩, ⟨[.Integer 1]⟩, ⟨[.Integer 2]⟩]⟩ =
        some (.Integer m) ∧ m ∈ [(3 : Int), 1, 2] ∧ ∀ x ∈ [(3 : Int), 1, 2], m ≤ x)
    ∧ (∃ m, aggregation_max "f" ["f"]
        ⟨[⟨[.Integer 3]⟩, ⟨[.Integer 1]⟩, ⟨[.Integer 2]⟩]⟩ =
        some (.Integer m) ∧ m ∈ [(3 : Int), 1, 2] ∧ ∀ x ∈ [(3 : Int), 1, 2], x ≤ m) :=
  C3_aggregation_min_max "f" ["f"]
    ⟨[⟨[.Integer 3]⟩, ⟨[.Integer 1]⟩, ⟨[.Integer 2]⟩]⟩ 0 [3, 1, 2]
    (by rfl) (by rfl) (by decide)

/-! ### Limit / Offset executor statements
(src/crates/gitql-engine/src/engine_executor.rs lines 229-267) -/

/-- Common shape of `execute_limit_statement` / `execute_offset_statement`:
short-circuit on an empty object, `flat()` when more than one group exists,
then rewrite the rows of the main group. -/
def withMainGroup (f : List Row → List Row) (obj : GitQLObject) :
    GitQLObject :=
  if obj.groups.isEmpty then obj
  else
    match (if obj.groups.length > 1 then obj.flat else obj) with
    | ⟨t, []⟩ => ⟨t, []⟩
    | ⟨t, g :: rest⟩ => ⟨t, ⟨f g.rows⟩ :: rest⟩

/-- `execute_limit_statement`: `drain(count..len)` keeps the first `count`
rows, and only runs when `count <= len`. -/
def execute_limit_statement (count : Nat) : GitQLObject → GitQLObject :=
  withMainGroup fun rows =>
    if count ≤ rows.length then rows.take count else rows

/-- `execute_offset_statement`: `drain(0..min(count, len))` drops the first
`min(count, len)` rows. -/
def execute_offset_statement (count : Nat) : GitQLObject → GitQLObject :=
  withMainGroup fun rows => rows.drop (min count rows.length)

theorem withMainGroup_titles (f : List Row → List Row) (obj : GitQLObject) :
    (withMainGroup f obj).titles = obj.titles := by
  rcases obj with ⟨t, gs⟩
  cases gs with
  | nil => rfl
  | cons g rest =>
    cases rest with
    | nil => simp [withMainGroup]
    | cons g2 rest2 => simp [withMainGroup, GitQLObject.flat]

theorem withMainGroup_single (f : List Row → List Row) (t : List String)
    (r : List Row) : withMainGroup f ⟨t, [⟨r⟩]⟩ = ⟨t, [⟨f r⟩]⟩ := by
  unfold withMainGroup
  simp

/-- C5: on a single-group object, `Offset{k}` followed by `Limit{n}` keeps
exactly the rows at positions `[k, min(k+n, len))` in order; `Offset{0}`
is the identity; a `Limit` whose count exceeds the row count is the
identity; and neither statement ever modifies the titles. -/
theorem C5_offset_limit_composition (titles : List String) (r : List Row)
    (k n : Nat) :
    execute_limit_statement n (execute_offset_statement k ⟨titles, [⟨r⟩]⟩)
      = ⟨titles, [⟨(r.drop k).take n⟩]⟩
    ∧ execute_offset_statement 0 ⟨titles, [⟨r⟩]⟩ = ⟨titles, [⟨r⟩]⟩
    ∧ (r.length < n →
        execute_limit_statement n ⟨titles, [⟨r⟩]⟩ = ⟨titles, [⟨r⟩]⟩)
    ∧ (∀ obj : GitQLObject,
        (execute_offset_statement k obj).titles = obj.titles
        ∧ (execute_limit_statement n obj).titles = obj.titles) := by
  have hdrop : ∀ m : Nat, r.drop (min m r.length) = r.drop m := by
    intro m
    rcases le_or_lt m r.length with h | h
    · rw [min_eq_left h]
    · rw [min_eq_right h.le, List.drop_length, List.drop_eq_nil_of_le h.le]
  refine ⟨?_, ?_, ?_, ?_⟩
  · rw [execute_offset_statement, withMainGroup_single, hdrop,
      execute_limit_statement, withMainGroup_single]
    rcases le_or_lt n (r.drop k).length with h | h
    · rw [if_pos h]
    · rw [if_neg (by omega), List.take_of_length_le h.le]
  · rw [execute_offset_statement, withMainGroup_single, hdrop, List.drop_zero]
  · intro h
    rw [execute_limit_statement, withMainGroup_single, if_neg (by omega)]
  · intro obj
    exact ⟨withMainGroup_titles _ obj, withMainGroup_titles _ obj⟩

/-- Witness for C5: the composition evaluated on three concrete rows. -/
theorem C5_offset_limit_composition_witness :
    execute_limit_statement 1 (execute_offset_statement 1
        ⟨["t"], [⟨[⟨[.Integer 1]⟩, ⟨[.Integer 2]⟩, ⟨[.Integer 3]⟩]⟩]⟩)
      = ⟨["t"], [⟨[⟨[.Integer 2]⟩]⟩]⟩
    ∧ (([⟨[.Integer 1]⟩, ⟨[.Integer 2]⟩, ⟨[.Integer 3]⟩] : List Row).length < 4 →
        execute_limit_statement 4
          ⟨["t"], [⟨[⟨[.Integer 1]⟩, ⟨[.Integer 2]⟩, ⟨[.Integer 3]⟩]⟩]⟩
        = ⟨["t"], [⟨[⟨[.Integer 1]⟩, ⟨[.Integer 2]⟩, ⟨[.Integer 3]⟩]⟩]⟩) :=
  ⟨(C5_offset_limit_composition ["t"]
      [⟨[.Integer 1]⟩, ⟨[.Integer 2]⟩, ⟨[.Integer 3]⟩] 1 1).1,
   (C5_offset_limit_composition ["t"]
      [⟨[.Integer 1]⟩, ⟨[.Integer 2]⟩, ⟨[.Integer 3]⟩] 1 4).2.2.1⟩

/-! ### Environment, expressions and `SET` (claim C7) -/

/-- The session `Environment` (src/crates/gitql-ast/src/environment.rs);
each `HashMap` is embedded as its per-key lookup function. -/
structure Environment where
  globals : String → Option Value
  globals_types : String → Option DataType
  scopes : String → Option DataType

/-- Modelled from the spec: `Box<dyn Expression>` together with the
evaluator `evaluate_expression` (engine_evaluator.rs is not under src/).
An expression is represented by the interface the executor relies on: its
`is_const` flag and its evaluation over the environment, the titles and
the row values, returning a runtime error or a value (the evaluator does
not mutate the environment through the executor's code paths modelled
here). -/
structure Expr where
  is_const : Bool
  eval : Environment → List String → List Value → Except String Value

/-- `GlobalVariableStatement` (src/crates/gitql-ast/src/statement.rs). -/
structure GlobalVariableStatement where
  name : String
  value : Expr

/-- `execute_global_variable_statement` (engine_executor.rs lines
461-468): evaluate the right-hand side with empty titles and values; on
success insert into `env.globals`; the `?` operator propagates an error
before any write.  The result is the environment after execution paired
with the optional error. -/
def execute_global_variable_statement (env : Environment)
    (st : GlobalVariableStatement) : Environment × Option String :=
  match st.value.eval env [] [] with
  | .error err => (env, some err)
  | .ok v =>
    ({ env with
        globals := fun k => if k = st.name then some v else env.globals k },
      none)

/-- C7: if evaluating the `SET` right-hand side fails, the error is
propagated and the environment (in particular any prior binding of the
target name) is untouched; if it succeeds, the target global is bound to
the evaluated value and every other global binding is unchanged. -/
theorem C7_set_atomicity (env : Environment) (st : GlobalVariableStatement) :
    (∀ e, st.value.eval env [] [] = .error e →
      execute_global_variable_statement env st = (env, some e))
    ∧ (∀ v, st.value.eval env [] [] = .ok v →
        (execute_global_variable_statement env st).2 = none
        ∧ (execute_global_variable_statement env st).1.globals st.name
            = some v
        ∧ ∀ k, k ≠ st.name →
            (execute_global_variable_statement env st).1.globals k
              = env.globals k) := by
  constructor
  · intro e he
    unfold execute_global_variable_statement
    rw [he]
  · intro v hv
    unfold execute_global_variable_statement
    rw [hv]
    exact ⟨rfl, by simp, fun k hk => by simp [hk]⟩

/-- A concrete environment with no bindings. -/
def emptyEnv : Environment := ⟨fun _ => none, fun _ => none, fun _ => none⟩

/-- Witness for C7: a successful `SET` and a failing `SET` on concrete
statements. -/
theorem C7_set_atomicity_witness :
    (execute_global_variable_statement emptyEnv
        ⟨"x", ⟨false, fun _ _ _ => .ok (.Integer 5)⟩⟩).1.globals "x"
      = some (.Integer 5)
    ∧ execute_global_variable_statement emptyEnv
        ⟨"x", ⟨false, fun _ _ _ => .error "boom"⟩⟩
      = (emptyEnv, some "boom") :=
  ⟨((C7_set_atomicity emptyEnv
      ⟨"x", ⟨false, fun _ _ _ => .ok (.Integer 5)⟩⟩).2
      (.Integer 5) rfl).2.1,
   (C7_set_atomicity emptyEnv
      ⟨"x", ⟨false, fun _ _ _ => .error "boom"⟩⟩).1 "boom" rfl⟩

/-! ### Octal literal tokenization (claim C8)
(src/crates/gitql-parser/src/tokenizer.rs lines 805-847)

For an input beginning `0o…`, `tokenize` (lines 151-160) advances
`position` and `column_start` past the two prefix characters and calls
`consume_octal_number(chars, pos, start)` with `pos = start = 2`. -/

/-- The loop condition of `consume_octal_number` (tokenizer.rs line 811),
verbatim: `(chars[pos] >= '0' || chars[pos] < '8') || chars[pos] == '_'`.
Because of the `||` between the two range checks this condition holds for
every character. -/
def octalLoopCond (c : Char) : Bool :=
  (decide (c ≥ '0') || decide (c < '8')) || c == '_'

/-- The number of characters the `consume_octal_number` while-loop
consumes from the given suffix: the maximal prefix satisfying
`octalLoopCond`. -/
def octalTake : List Char → Nat
  | [] => 0
  | c :: rest => if octalLoopCond c then octalTake rest + 1 else 0

theorem octalLoopCond_true (c : Char) : octalLoopCond c = true := by
  unfold octalLoopCond
  simp only [Bool.or_eq_true, decide_eq_true_eq]
  rcases le_or_lt '0' c with h | h
  · exact Or.inl (Or.inl h)
  · exact Or.inl (Or.inr (lt_trans h (by decide)))

/-- The buggy loop condition consumes the entire remaining input. -/
theorem octalTake_all (cs : List Char) : octalTake cs = cs.length := by
  induction cs with
  | nil => rfl
  | cons c rest ih => simp [octalTake, octalLoopCond_true c, ih]

/-- One octal digit of `i64::from_str_radix(_, 8)`. -/
def octalDigitVal? (c : Char) : Option Nat :=
  if '0' ≤ c ∧ c ≤ '7' then some (c.toNat - '0'.toNat) else none

/-- Digit run of `from_str_radix` (no sign): at least one digit, all in
range. -/
def parseOctDigits (cs : List Char) : Option Nat :=
  if cs.isEmpty then none
  else cs.foldlM (fun acc c => (octalDigitVal? c).map fun d => acc * 8 + d) 0

/-- `i64::from_str_radix(s, 8)`: optional sign, then octal digits; errors
on an empty digit run, a non-digit, or overflow (overflow is modelled by a
final range check, equivalent for all non-overflowing inputs). -/
def i64FromStrRadix8 (s : List Char) : Option Int :=
  match s with
  | '+' :: rest =>
    (parseOctDigits rest).bind fun n =>
      if (n : Int) ≤ I64MAX then some (n : Int) else none
  | '-' :: rest =>
    (parseOctDigits rest).bind fun n =>
      if -(n : Int) ≥ I64MIN then some (-(n : Int)) else none
  | _ =>
    (parseOctDigits s).bind fun n =>
      if (n : Int) ≤ I64MAX then some (n : Int) else none

/-- `consume_octal_number` (tokenizer.rs lines 805-847): run the consuming
loop from `pos`, require at least one consumed character, slice
`chars[start..pos]`, strip underscores, parse in radix 8, and return the
Integer token's literal (the decimal rendering) together with the final
position; `.error` carries the diagnostic message. -/
def consume_octal_number (chars : List Char) (pos start : Nat) :
    Except String (String × Nat) :=
  let consumed := octalTake (chars.drop pos)
  let pos1 := pos + consumed
  let has_digit := decide (0 < consumed)
  if !has_digit then .error "Missing digits after the integer base prefix"
  else
    let literal := (chars.drop start).take (pos1 - start)
    let literal_num := literal.filter fun c => c != '_'
    match i64FromStrRadix8 literal_num with
    | none => .error "Invalid octal number"
    | some n => .ok (toString n, pos1)

/-- C8: the failing input `"0o17 + 1"`.  `tokenize` calls
`consume_octal_number` with `pos = start = 2`; the loop condition is a
tautology, so the consumer swallows the entire rest of the input
(`"17 + 1"`), radix-8 parsing of that slice fails, and the tokenizer
reports `Invalid octal number` instead of emitting the Integer token `15`
and then tokenizing `+` and `1`.  On the non-failing input `"0o17"`
(octal literal at end of input) the decimal rendering is produced as the
claim describes. -/
theorem C8_octal_tokenization :
    consume_octal_number ("0o17 + 1".toList) 2 2 = .error "Invalid octal number"
    ∧ octalTake (("0o17 + 1".toList).drop 2) = 6
    ∧ consume_octal_number ("0o17".toList) 2 2 = .ok ("15", 4)
    ∧ consume_octal_number ("0o1_7".toList) 2 2 = .ok ("15", 5)
    ∧ consume_octal_number ("0o".toList) 2 2 =
        .error "Missing digits after the integer base prefix" := by
  refine ⟨by rfl, by rfl, by rfl, by rfl, by rfl⟩

/-! ### ORDER BY (claim C2)
(src/crates/gitql-engine/src/engine_executor.rs lines 269-324) -/

inductive SortingOrder where
  | Ascending
  | Descending
deriving DecidableEq

/-- `OrderByStatement` (statement.rs): parallel vectors of arguments and
directions. -/
structure OrderByStatement where
  arguments : List Expr
  sorting_orders : List SortingOrder

/-- The multi-key comparator closure passed to `sort_by` (lines 287-321):
constant arguments are skipped; per argument the two rows are evaluated
(errors swallowed into `Null`), compared with `Value::compare`, equal keys
fall through to the next argument, and the first strict result is kept
as-is for `Descending` and `reverse()`d otherwise.  `none` models the
`sorting_orders[i]` indexing panic. -/
def orderCompareLoop (env : Environment) (titles : List String)
    (ords : List SortingOrder) (a b : Row) :
    List Expr → Nat → Option Ordering
  | [], _ => some .eq
  | arg :: rest, i =>
    if arg.is_const then orderCompareLoop env titles ords a b rest (i + 1)
    else
      let first := ((arg.eval env titles a.values).toOption).getD .Null
      let other := ((arg.eval env titles b.values).toOption).getD .Null
      let current := first.compare other
      if current = .eq then orderCompareLoop env titles ords a b rest (i + 1)
      else
        match ords[i]? with
        | none => none
        | some d => some (if d = .Descending then current else current.swap)

/-- Stable insertion step: `x` is placed before the first element it
compares `Less` than, hence after every element with an equal key. -/
def insertBy (c : α → α → Ordering) (x : α) : List α → List α
  | [] => [x]
  | y :: ys => if c x y = .lt then x :: y :: ys else y :: insertBy c x ys

/-- Stable insertion sort.  `slice::sort_by` is a stable sort; for a
comparator consistent with a total preorder (the only case the claims
exercise) the stable result is unique, so insertion sort is a faithful
model of it. -/
def sortBy (c : α → α → Ordering) (l : List α) : List α :=
  l.foldl (fun acc x => insertBy c x acc) []

/-- Monadic variant of `insertBy` for a comparator that may panic. -/
def insertByM (c : α → α → Option Ordering) (x : α) :
    List α → Option (List α)
  | [] => some [x]
  | y :: ys =>
    match c x y with
    | none => none
    | some o =>
      if o = .lt then some (x :: y :: ys)
      else (insertByM c x ys).map fun zs => y :: zs

/-- Monadic variant of `sortBy`: any comparator panic aborts the whole
sort (with respect to the insertion-sort comparison schedule). -/
def sortByM (c : α → α → Option Ordering) (l : List α) :
    Option (List α) :=
  l.foldlM (fun acc x => insertByM c x acc) []

/-- `execute_order_by_statement`: short-circuit empty objects, `flat()`
multi-group objects, leave an empty main group alone, and otherwise
stable-sort the main group's rows by the multi-key comparator. -/
def execute_order_by_statement (env : Environment) (st : OrderByStatement)
    (obj : GitQLObject) : Except String GitQLObject :=
  if obj.groups.isEmpty then .ok obj
  else
    match (if obj.groups.length > 1 then obj.flat else obj) with
    | ⟨t, []⟩ => .ok ⟨t, []⟩
    | ⟨t, g :: rest⟩ =>
      if g.rows.isEmpty then .ok ⟨t, g :: rest⟩
      else
        match sortByM
            (fun a b =>
              orderCompareLoop env t st.sorting_orders a b st.arguments 0)
            g.rows with
        | none => .error "panic: sorting_orders index out of bounds"
        | some rows => .ok ⟨t, ⟨rows⟩ :: rest⟩

/-! Generic lemmas about the stable sort, for comparators determined by an
integer key. -/

/-- Comparator induced by an integer key. -/
def keyCmp (k : α → Int) : α → α → Ordering := fun a b => intCmp (k a) (k b)

theorem intCmp_neg (a b : Int) : intCmp (-a) (-b) = intCmp b a := by
  rcases lt_trichotomy a b with h | h | h
  · rw [(intCmp_gt_iff (-a) (-b)).mpr (by omega),
      ((intCmp_gt_iff b a).mpr h).symm]
  · subst h
    rw [(intCmp_eq_iff (-a) (-a)).mpr rfl, ((intCmp_eq_iff a a).mpr rfl)]
  · rw [(intCmp_lt_iff (-a) (-b)).mpr (by omega),
      ((intCmp_lt_iff b a).mpr h).symm]

theorem insertBy_perm (c : α → α → Ordering) (x : α) (l : List α) :
    (insertBy c x l).Perm (x :: l) := by
  induction l with
  | nil => exact List.Perm.refl _
  | cons y ys ih =>
    unfold insertBy
    by_cases h : c x y = .lt
    · rw [if_pos h]
    · rw [if_neg h]
      exact (ih.cons y).trans (List.Perm.swap x y ys)

theorem insertBy_mem {c : α → α → Ordering} {x z : α} {l : List α} :
    z ∈ insertBy c x l ↔ z = x ∨ z ∈ l := by
  rw [(insertBy_perm c x l).mem_iff, List.mem_cons]

theorem foldl_insertBy_perm (c : α → α → Ordering) :
    ∀ (l acc : List α),
      (l.foldl (fun acc x => insertBy c x acc) acc).Perm (acc ++ l) := by
  intro l
  induction l with
  | nil => intro acc; simp
  | cons x xs ih =>
    intro acc
    simp only [List.foldl_cons]
    refine (ih (insertBy c x acc)).trans ?_
    refine (((insertBy_perm c x acc).append_right xs).trans ?_)
    exact List.perm_middle.symm

theorem sortBy_perm (c : α → α → Ordering) (l : List α) :
    (sortBy c l).Perm l := by
  have := foldl_insertBy_perm c l []
  simpa [sortBy] using this

theorem insertBy_pairwise (k : α → Int) (x : α) (l : List α)
    (hl : l.Pairwise fun a b => k a ≤ k b) :
    (insertBy (keyCmp k) x l).Pairwise fun a b => k a ≤ k b := by
  induction l with
  | nil => simp [insertBy]
  | cons y ys ih =>
    rcases List.pairwise_cons.mp hl with ⟨hy, hys⟩
    unfold insertBy
    by_cases h : keyCmp k x y = .lt
    · rw [if_pos h]
      have hxy : k x < k y := (intCmp_lt_iff (k x) (k y)).mp h
      refine List.pairwise_cons.mpr ⟨?_, hl⟩
      intro z hz
      rcases List.mem_cons.mp hz with rfl | hz
      · exact hxy.le
      · exact le_trans hxy.le (hy z hz)
    · rw [if_neg h]
      have hyx : k y ≤ k x := by
        have := (intCmp_lt_iff (k x) (k y)).not.mp h
        omega
      refine List.pairwise_cons.mpr ⟨?_, ih hys⟩
      intro z hz
      rcases insertBy_mem.mp hz with rfl | hz
      · exact hyx
      · exact hy z hz

theorem foldl_insertBy_pairwise (k : α → Int) :
    ∀ (l acc : List α), (acc.Pairwise fun a b => k a ≤ k b) →
      ((l.foldl (fun acc x => insertBy (keyCmp k) x acc) acc).Pairwise
        fun a b => k a ≤ k b) := by
  intro l
  induction l with
  | nil => intro acc h; simpa using h
  | cons x xs ih =>
    intro acc h
    simp only [List.foldl_cons]
    exact ih _ (insertBy_pairwise k x acc h)

theorem sortBy_pairwise (k : α → Int) (l : List α) :
    (sortBy (keyCmp k) l).Pairwise fun a b => k a ≤ k b :=
  foldl_insertBy_pairwise k l [] (List.Pairwise.nil)

theorem insertBy_filter (k : α → Int) (m : Int) (x : α) (l : List α)
    (hl : l.Pairwise fun a b => k a ≤ k b) :
    (insertBy (keyCmp k) x l).filter (fun a => decide (k a = m))
      = if k x = m then
          l.filter (fun a => decide (k a = m)) ++ [x]
        else l.filter (fun a => decide (k a = m)) := by
  induction l with
  | nil =>
    by_cases hx : k x = m
    · simp [insertBy, hx]
    · simp [insertBy, hx]
  | cons y ys ih =>
    rcases List.pairwise_cons.mp hl with ⟨hy, hys⟩
    unfold insertBy
    by_cases h : keyCmp k x y = .lt
    · rw [if_pos h]
      have hxy : k x < k y := (intCmp_lt_iff (k x) (k y)).mp h
      by_cases hx : k x = m
      · have hnil : (y :: ys).filter (fun a => decide (k a = m)) = [] := by
          rw [List.filter_eq_nil_iff]
          intro z hz
          rcases List.mem_cons.mp hz with rfl | hz
          · simpa using by omega
          · have := hy z hz
            simpa using by omega
        rw [if_pos hx]
        rw [List.filter_cons_of_pos (by simpa using hx), hnil]
        rfl
      · rw [if_neg hx]
        rw [List.filter_cons_of_neg (by simpa using hx)]
    · rw [if_neg h]
      by_cases hym : k y = m
      · rw [List.filter_cons_of_pos (by simpa using hym),
          List.filter_cons_of_pos (by simpa using hym), ih hys]
        by_cases hx : k x = m
        · rw [if_pos hx, if_pos hx]; rfl
        · rw [if_neg hx, if_neg hx]
      · rw [List.filter_cons_of_neg (by simpa using hym),
          List.filter_cons_of_neg (by simpa using hym), ih hys]

theorem foldl_insertBy_filter (k : α → Int) (m : Int) :
    ∀ (l acc : List α), (acc.Pairwise fun a b => k a ≤ k b) →
      (l.foldl (fun acc x => insertBy (keyCmp k) x acc) acc).filter
          (fun a => decide (k a = m))
        = acc.filter (fun a => decide (k a = m))
          ++ l.filter (fun a => decide (k a = m)) := by
  intro l
  induction l with
  | nil => intro acc h; simp
  | cons x xs ih =>
    intro acc h
    simp only [List.foldl_cons]
    rw [ih _ (insertBy_pairwise k x acc h), insertBy_filter k m x acc h]
    by_cases hx : k x = m
    · rw [if_pos hx, List.filter_cons_of_pos (by simpa using hx)]
      simp
    · rw [if_neg hx, List.filter_cons_of_neg (by simpa using hx)]

theorem sortBy_filter (k : α → Int) (m : Int) (l : List α) :
    (sortBy (keyCmp k) l).filter (fun a => decide (k a = m))
      = l.filter (fun a => decide (k a = m)) := by
  have := foldl_insertBy_filter k m l [] (List.Pairwise.nil)
  simpa [sortBy] using this

theorem insertByM_eq (c : α → α → Option Ordering) (c' : α → α → Ordering)
    (x : α) (l : List α) (h : ∀ y ∈ l, c x y = some (c' x y)) :
    insertByM c x l = some (insertBy c' x l) := by
  induction l with
  | nil => rfl
  | cons y ys ih =>
    unfold insertByM insertBy
    rw [h y (List.mem_cons_self y ys)]
    by_cases hlt : c' x y = .lt
    · simp [hlt]
    · rw [ih fun z hz => h z (List.mem_cons_of_mem y hz)]
      simp [hlt]

theorem foldlM_insertByM_eq (c : α → α → Option Ordering)
    (c' : α → α → Ordering) (l₀ : List α)
    (h : ∀ a ∈ l₀, ∀ b ∈ l₀, c a b = some (c' a b)) :
    ∀ (rest acc : List α), (∀ y ∈ acc, y ∈ l₀) → (∀ y ∈ rest, y ∈ l₀) →
      (rest.foldlM (fun acc x => insertByM c x acc) acc : Option (List α))
        = some (rest.foldl (fun acc x => insertBy c' x acc) acc) := by
  intro rest
  induction rest with
  | nil => intro acc _ _; rfl
  | cons x xs ih =>
    intro acc hacc hrest
    have hx : x ∈ l₀ := hrest x (List.mem_cons_self x xs)
    rw [List.foldlM_cons,
      insertByM_eq c c' x acc fun y hy => h x hx y (hacc y hy)]
    simp only [Option.bind_eq_bind, Option.some_bind, List.foldl_cons]
    refine ih (insertBy c' x acc) ?_
      (fun y hy => hrest y (List.mem_cons_of_mem x hy))
    intro y hy
    rcases insertBy_mem.mp hy with rfl | hy
    · exact hx
    · exact hacc y hy

theorem sortByM_eq (c : α → α → Option Ordering) (c' : α → α → Ordering)
    (l : List α) (h : ∀ a ∈ l, ∀ b ∈ l, c a b = some (c' a b)) :
    sortByM c l = some (sortBy c' l) := by
  exact foldlM_insertByM_eq c c' l h l [] (by simp) (fun y hy => hy)

theorem compare_integer_integer (x y : Int) :
    (Value.Integer x).compare (Value.Integer y) = intCmp y x := by
  simp [Value.compare, Value.dataType, DataType.is_int, Value.as_int]

theorem orderCompareLoop_asc (env : Environment) (titles : List String)
    (e : Expr) (k : Row → Int) (a b : Row) (hconst : e.is_const = false)
    (ha : e.eval env titles a.values = .ok (.Integer (k a)))
    (hb : e.eval env titles b.values = .ok (.Integer (k b))) :
    orderCompareLoop env titles [.Ascending] a b [e] 0
      = some (keyCmp k a b) := by
  unfold orderCompareLoop
  simp only [hconst, Bool.false_eq_true, if_false, ha, hb, Except.toOption,
    Option.getD_some, compare_integer_integer]
  by_cases heq : intCmp (k b) (k a) = .eq
  · rw [if_pos heq]
    have hk : k b = k a := (intCmp_eq_iff _ _).mp heq
    unfold orderCompareLoop keyCmp
    rw [(intCmp_eq_iff (k a) (k b)).mpr hk.symm]
  · rw [if_neg heq]
    simp only [List.getElem?_cons_zero]
    have : (SortingOrder.Ascending = SortingOrder.Descending) = False := by
      simp
    rw [if_neg (by simp)]
    unfold keyCmp
    rw [intCmp_swap]

theorem orderCompareLoop_desc (env : Environment) (titles : List String)
    (e : Expr) (k : Row → Int) (a b : Row) (hconst : e.is_const = false)
    (ha : e.eval env titles a.values = .ok (.Integer (k a)))
    (hb : e.eval env titles b.values = .ok (.Integer (k b))) :
    orderCompareLoop env titles [.Descending] a b [e] 0
      = some (keyCmp (fun r => -(k r)) a b) := by
  unfold orderCompareLoop
  simp only [hconst, Bool.false_eq_true, if_false, ha, hb, Except.toOption,
    Option.getD_some, compare_integer_integer]
  by_cases heq : intCmp (k b) (k a) = .eq
  · rw [if_pos heq]
    have hk : k b = k a := (intCmp_eq_iff _ _).mp heq
    unfold orderCompareLoop keyCmp
    rw [(intCmp_eq_iff (-(k a)) (-(k b))).mpr (by omega)]
  · rw [if_neg heq]
    simp only [List.getElem?_cons_zero]
    rw [if_pos trivial]
    unfold keyCmp
    rw [intCmp_neg]

/-- C2: on a single-group object ordered by one non-constant argument
whose per-row evaluation yields `Integer` keys, `execute_order_by`
permutes the rows into non-decreasing key order for `Ascending` and
non-increasing order for `Descending`, stably: rows with equal keys keep
their original relative order (expressed as filter-preservation for every
key value). -/
theorem C2_order_by_stable_sort (env : Environment) (titles : List String)
    (rows : List Row) (e : Expr) (d : SortingOrder) (k : Row → Int)
    (hconst : e.is_const = false)
    (heval : ∀ r ∈ rows, e.eval env titles r.values = .ok (.Integer (k r))) :
    ∃ rows' : List Row,
      execute_order_by_statement env ⟨[e], [d]⟩ ⟨titles, [⟨rows⟩]⟩
          = .ok ⟨titles, [⟨rows'⟩]⟩
      ∧ rows'.Perm rows
      ∧ rows'.Pairwise (fun a b =>
          match d with
          | .Ascending => k a ≤ k b
          | .Descending => k b ≤ k a)
      ∧ ∀ m : Int, rows'.filter (fun r => decide (k r = m))
          = rows.filter (fun r => decide (k r = m)) := by
  cases rows with
  | nil => exact ⟨[], rfl, .nil, .nil, fun m => rfl⟩
  | cons r rs =>
    cases d with
    | Ascending =>
      have hc : ∀ a ∈ r :: rs, ∀ b ∈ r :: rs,
          orderCompareLoop env titles [SortingOrder.Ascending] a b [e] 0
            = some (keyCmp k a b) :=
        fun a ha b hb =>
          orderCompareLoop_asc env titles e k a b hconst
            (heval a ha) (heval b hb)
      have hsort := sortByM_eq _ (keyCmp k) (r :: rs) hc
      refine ⟨sortBy (keyCmp k) (r :: rs), ?_, sortBy_perm _ _,
        sortBy_pairwise k (r :: rs), fun m => sortBy_filter k m (r :: rs)⟩
      unfold execute_order_by_statement
      simp only [List.isEmpty_cons, Bool.false_eq_true, if_false,
        List.length_cons, List.length_nil]
      rw [if_neg (by omega)]
      simp only [List.isEmpty_cons, Bool.false_eq_true, if_false]
      rw [hsort]
    | Descending =>
      have hc : ∀ a ∈ r :: rs, ∀ b ∈ r :: rs,
          orderCompareLoop env titles [SortingOrder.Descending] a b [e] 0
            = some (keyCmp (fun x => -(k x)) a b) :=
        fun a ha b hb =>
          orderCompareLoop_desc env titles e k a b hconst
            (heval a ha) (heval b hb)
      have hsort := sortByM_eq _ (keyCmp fun x => -(k x)) (r :: rs) hc
      refine ⟨sortBy (keyCmp fun x => -(k x)) (r :: rs), ?_, sortBy_perm _ _,
        ?_, ?_⟩
      · unfold execute_order_by_statement
        simp only [List.isEmpty_cons, Bool.false_eq_true, if_false,
          List.length_cons, List.length_nil]
        rw [if_neg (by omega)]
        simp only [List.isEmpty_cons, Bool.false_eq_true, if_false]
        rw [hsort]
      · refine List.Pairwise.imp ?_
          (sortBy_pairwise (fun x => -(k x)) (r :: rs))
        intro a b h
        simpa using by omega
      · intro m
        have h1 := sortBy_filter (fun x => -(k x)) (-m) (r :: rs)
        have hpred : ∀ (l : List Row),
            l.filter (fun a => decide (-(k a) = -m))
              = l.filter (fun a => decide (k a = m)) := by
          intro l
          refine List.filter_congr ?_
          intro x _
          simp [neg_inj]
        rw [hpred, hpred] at h1
        exact h1

/-- Witness for C2: sorting two concrete rows ascending by their single
Integer column. -/
theorem C2_order_by_stable_sort_witness :
    ∃ rows' : List Row,
      execute_order_by_statement emptyEnv
          ⟨[⟨false, fun _ _ vs => .ok (.Integer (vs.headD .Null).as_int)⟩],
            [.Ascending]⟩
          ⟨["x"], [⟨[⟨[.Integer 2]⟩, ⟨[.Integer 1]⟩]⟩]⟩
        = .ok ⟨["x"], [⟨rows'⟩]⟩
      ∧ rows'.Perm [⟨[.Integer 2]⟩, ⟨[.Integer 1]⟩]
      ∧ rows'.Pairwise (fun a b =>
          match SortingOrder.Ascending with
          | .Ascending =>
            (a.values.headD .Null).as_int ≤ (b.values.headD .Null).as_int
          | .Descending =>
            (b.values.headD .Null).as_int ≤ (a.values.headD .Null).as_int)
      ∧ ∀ m : Int,
          rows'.filter
            (fun r => decide ((r.values.headD .Null).as_int = m))
          = ([⟨[.Integer 2]⟩, ⟨[.Integer 1]⟩] : List Row).filter
              (fun r => decide ((r.values.headD .Null).as_int = m)) :=
  C2_order_by_stable_sort emptyEnv ["x"] [⟨[.Integer 2]⟩, ⟨[.Integer 1]⟩]
    ⟨false, fun _ _ vs => .ok (.Integer (vs.headD .Null).as_int)⟩
    .Ascending (fun r => (r.values.headD .Null).as_int) rfl
    (by intro r hr; rfl)

/-! ### GROUP BY (claim C4)
(src/crates/gitql-engine/src/engine_executor.rs lines 326-371) -/

/-- Per-key lookup in the `groups_map: HashMap<String, usize>`. -/
def aLookup (m : List (String × Nat)) (k : String) : Option Nat :=
  match m with
  | [] => none
  | (k', v) :: rest => if k' == k then some v else aLookup rest k

/-- The row loop of `execute_group_by_statement`: per row, find the field
index in the titles (`unwrap` panic when absent), read the cell (index
panic when out of bounds), bucket by its `as_text()` form: a fresh key
appends a new group and records its index, an existing key appends the
row to its group. -/
def groupByLoop (titles : List String) (field : String) :
    List Row → List (String × Nat) → Nat → List GQLGroup →
    Except String (List GQLGroup)
  | [], _, _, groups => .ok groups
  | row :: rest, map, nextIdx, groups =>
    match aIdxOf? field titles with
    | none => .error "panic: group by field not found in titles"
    | some fi =>
      match row.values[fi]? with
      | none => .error "panic: row cell index out of bounds"
      | some v =>
        match aLookup map v.as_text with
        | none =>
          groupByLoop titles field rest ((v.as_text, nextIdx) :: map)
            (nextIdx + 1) (groups ++ [⟨[row]⟩])
        | some idx =>
          match groups[idx]? with
          | none => .error "panic: group index out of bounds"
          | some tg =>
            groupByLoop titles field rest map nextIdx
              (groups.set idx ⟨tg.rows ++ [row]⟩)

/-- `execute_group_by_statement`: remove the main group (early Ok when the
object is empty or the removed group is), then run the bucketing loop
over its rows, pushing groups after the remaining ones. -/
def execute_group_by_statement (field : String) (obj : GitQLObject) :
    Except String GitQLObject :=
  match obj.groups with
  | [] => .ok obj
  | main :: rest =>
    if main.rows.isEmpty then .ok ⟨obj.titles, rest⟩
    else (groupByLoop obj.titles field main.rows [] 0 rest).map
      fun gs => ⟨obj.titles, gs⟩

/-- First-occurrence deduplication, with an accumulator of already-seen
keys. -/
def dedupFirstAux (seen : List String) : List String → List String
  | [] => []
  | x :: xs =>
    if x ∈ seen then dedupFirstAux seen xs
    else x :: dedupFirstAux (x :: seen) xs

/-- The distinct keys of a list in order of first occurrence. -/
def dedupFirst (l : List String) : List String := dedupFirstAux [] l

/-- The bucket key of a row: `as_text()` of its cell at column `i`. -/
def rowKey (i : Nat) (r : Row) : String := ((r.values[i]?).getD .Null).as_text

/-- The canonical grouping of `rows` by the key at column `i`: one group
per distinct key in order of first occurrence, each holding the rows with
that key in their original relative order. -/
def canonGroups (i : Nat) (rows : List Row) : List GQLGroup :=
  (dedupFirst (rows.map (rowKey i))).map
    fun key => ⟨rows.filter fun r => rowKey i r == key⟩

theorem dedupFirstAux_mem (l : List String) :
    ∀ (seen : List String) (x : String),
      x ∈ dedupFirstAux seen l ↔ x ∈ l ∧ x ∉ seen := by
  induction l with
  | nil => intro seen x; simp [dedupFirstAux]
  | cons y ys ih =>
    intro seen x
    unfold dedupFirstAux
    by_cases hy : y ∈ seen
    · rw [if_pos hy, ih seen x]
      constructor
      · rintro ⟨hx, hns⟩; exact ⟨List.mem_cons_of_mem y hx, hns⟩
      · rintro ⟨hx, hns⟩
        rcases List.mem_cons.mp hx with rfl | hx
        · exact absurd hy hns
        · exact ⟨hx, hns⟩
    · rw [if_neg hy]
      constructor
      · intro hx
        rcases List.mem_cons.mp hx with rfl | hx
        · exact ⟨List.mem_cons_self _ _, hy⟩
        · rcases (ih (y :: seen) x).mp hx with ⟨h1, h2⟩
          exact ⟨List.mem_cons_of_mem y h1,
            fun hc => h2 (List.mem_cons_of_mem y hc)⟩
      · rintro ⟨hx, hns⟩
        rcases List.mem_cons.mp hx with rfl | hx
        · exact List.mem_cons_self _ _
        · by_cases hxy : x = y
          · subst hxy; exact List.mem_cons_self _ _
          · exact List.mem_cons_of_mem y ((ih (y :: seen) x).mpr
              ⟨hx, fun hc => by
                rcases List.mem_cons.mp hc with h | h
                · exact hxy h
                · exact hns h⟩)

theorem dedupFirst_mem (l : List String) (x : String) :
    x ∈ dedupFirst l ↔ x ∈ l := by
  rw [dedupFirst, dedupFirstAux_mem]
  simp

theorem dedupFirstAux_nodup (l : List String) :
    ∀ seen : List String, (dedupFirstAux seen l).Nodup := by
  induction l with
  | nil => intro seen; exact List.nodup_nil
  | cons y ys ih =>
    intro seen
    unfold dedupFirstAux
    by_cases hy : y ∈ seen
    · rw [if_pos hy]; exact ih seen
    · rw [if_neg hy]
      refine List.nodup_cons.mpr ⟨?_, ih (y :: seen)⟩
      intro hc
      exact ((dedupFirstAux_mem ys (y :: seen) y).mp hc).2
        (List.mem_cons_self _ _)

theorem dedupFirst_nodup (l : List String) : (dedupFirst l).Nodup :=
  dedupFirstAux_nodup l []

theorem dedupFirstAux_append_singleton (k : String) (l : List String) :
    ∀ seen : List String,
      dedupFirstAux seen (l ++ [k])
        = dedupFirstAux seen l
          ++ (if k ∈ seen ∨ k ∈ l then [] else [k]) := by
  induction l with
  | nil =>
    intro seen
    by_cases hk : k ∈ seen
    · simp [dedupFirstAux, hk]
    · simp [dedupFirstAux, hk]
  | cons x xs ih =>
    intro seen
    rw [List.cons_append]
    unfold dedupFirstAux
    by_cases hx : x ∈ seen
    · rw [if_pos hx, if_pos hx, ih seen]
      by_cases hk : k ∈ seen ∨ k ∈ xs
      · rw [if_pos hk, if_pos (by
          rcases hk with h | h
          · exact Or.inl h
          · exact Or.inr (List.mem_cons_of_mem x h))]
      · by_cases hkx : k = x
        · subst hkx
          exact absurd (Or.inl hx) hk
        · rw [if_neg hk, if_neg (by
            rintro (h | h)
            · exact hk (Or.inl h)
            · rcases List.mem_cons.mp h with h' | h'
              · exact hkx h'
              · exact hk (Or.inr h'))]
    · rw [if_neg hx, if_neg hx, ih (x :: seen), List.cons_append]
      by_cases hk : k ∈ x :: seen ∨ k ∈ xs
      · rw [if_pos hk, if_pos (by
          rcases hk with h | h
          · rcases List.mem_cons.mp h with h' | h'
            · exact Or.inr (h' ▸ List.mem_cons_self _ _)
            · exact Or.inl h'
          · exact Or.inr (List.mem_cons_of_mem x h))]
      · rw [if_neg hk, if_neg (by
          rintro (h | h)
          · exact hk (Or.inl (List.mem_cons_of_mem x h))
          · rcases List.mem_cons.mp h with h' | h'
            · exact hk (Or.inl (h' ▸ List.mem_cons_self _ _))
            · exact hk (Or.inr h'))]

theorem dedupFirst_append_singleton (k : String) (l : List String) :
    dedupFirst (l ++ [k])
      = dedupFirst l ++ (if k ∈ l then [] else [k]) := by
  rw [dedupFirst, dedupFirstAux_append_singleton k l [], dedupFirst]
  by_cases hk : k ∈ l
  · rw [if_pos (by simpa using hk), if_pos hk]
  · rw [if_neg (by simpa using hk), if_neg hk]

theorem aIdxOf?_eq_none_iff (k : String) (l : List String) :
    aIdxOf? k l = none ↔ k ∉ l := by
  induction l with
  | nil => simp [aIdxOf?]
  | cons x xs ih =>
    unfold aIdxOf?
    by_cases hx : x = k
    · subst hx
      simp
    · rw [if_neg (by simpa using hx)]
      simp only [Option.map_eq_none', ih, List.mem_cons, not_or]
      constructor
      · intro h
        exact ⟨fun e => hx e.symm, h⟩
      · rintro ⟨_, h⟩
        exact h

theorem aIdxOf?_getElem (k : String) (l : List String) :
    ∀ j : Nat, aIdxOf? k l = some j → l[j]? = some k := by
  induction l with
  | nil => intro j h; simp [aIdxOf?] at h
  | cons x xs ih =>
    intro j h
    unfold aIdxOf? at h
    by_cases hx : x = k
    · rw [if_pos (by simpa using hx)] at h
      cases h
      simpa using hx
    · rw [if_neg (by simpa using hx)] at h
      rcases Option.map_eq_some'.mp h with ⟨j0, hj0, rfl⟩
      simpa using ih j0 hj0

theorem aIdxOf?_append_singleton (x y : String) (l : List String) :
    aIdxOf? x (l ++ [y])
      = match aIdxOf? x l with
        | some j => some j
        | none => if y = x then some l.length else none := by
  induction l with
  | nil => simp [aIdxOf?]
  | cons z zs ih =>
    rw [List.cons_append]
    unfold aIdxOf?
    by_cases hz : z = x
    · rw [if_pos (by simpa using hz), if_pos (by simpa using hz)]
    · rw [if_neg (by simpa using hz), if_neg (by simpa using hz), ih]
      cases hzz : aIdxOf? x zs with
      | some j => simp
      | none =>
        by_cases hyx : y = x
        · simp [hyx]
        · simp [hyx]

theorem map_set_of_idx {β : Type} (l : List String) (k : String) (j : Nat)
    (hnd : l.Nodup) (hidx : aIdxOf? k l = some j) (f g : String → β)
    (hfg : ∀ x, x ≠ k → f x = g x) :
    l.map g = (l.map f).set j (g k) := by
  induction l generalizing j with
  | nil => simp [aIdxOf?] at hidx
  | cons x xs ih =>
    unfold aIdxOf? at hidx
    rcases List.nodup_cons.mp hnd with ⟨hx, hxs⟩
    by_cases hxk : x = k
    · subst hxk
      rw [if_pos (by simp)] at hidx
      cases hidx
      simp only [List.map_cons, List.set_cons_zero]
      congr 1
      refine List.map_congr_left ?_
      intro y hy
      exact (hfg y fun hc => hx (hc ▸ hy)).symm
    · rw [if_neg (by simpa using hxk)] at hidx
      rcases Option.map_eq_some'.mp hidx with ⟨j0, hj0, rfl⟩
      simp only [List.map_cons, List.set_cons_succ]
      rw [hfg x hxk, ih j0 hxs hj0]

theorem filter_key_eq_nil (i : Nat) (key : String) (rows : List Row)
    (h : key ∉ rows.map (rowKey i)) :
    rows.filter (fun r => rowKey i r == key) = [] := by
  rw [List.filter_eq_nil_iff]
  intro r hr
  simp only [beq_iff_eq]
  intro hc
  exact h (hc ▸ List.mem_map_of_mem (rowKey i) hr)

theorem groupByLoop_canon (titles : List String) (field : String) (i : Nat)
    (hidx : aIdxOf? field titles = some i) :
    ∀ (rest seen : List Row) (map : List (String × Nat))
      (groups : List GQLGroup),
      (∀ r ∈ rest, i < r.values.length) →
      (∀ k, aLookup map k = aIdxOf? k (dedupFirst (seen.map (rowKey i)))) →
      groups = (dedupFirst (seen.map (rowKey i))).map
        (fun key => ⟨seen.filter fun r => rowKey i r == key⟩) →
      groupByLoop titles field rest map
          (dedupFirst (seen.map (rowKey i))).length groups
        = .ok ((dedupFirst ((seen ++ rest).map (rowKey i))).map
            (fun key => ⟨(seen ++ rest).filter fun r => rowKey i r == key⟩)) := by
  intro rest
  induction rest with
  | nil =>
    intro seen map groups _ _ hg
    simp only [groupByLoop, List.append_nil]
    rw [hg]
  | cons row rest' ih =>
    intro seen map groups hlen hm hg
    have hi : i < row.values.length := hlen row (List.mem_cons_self row rest')
    obtain ⟨v, hval⟩ : ∃ v, row.values[i]? = some v :=
      ⟨_, List.getElem?_eq_getElem hi⟩
    have hask : v.as_text = rowKey i row := by simp [rowKey, hval]
    have hseenrow :
        (seen ++ row :: rest') = (seen ++ [row]) ++ rest' := by
      simp
    rw [hseenrow]
    simp only [groupByLoop, hidx, hval]
    rw [hask, hm (rowKey i row)]
    cases hfound : aIdxOf? (rowKey i row)
        (dedupFirst (seen.map (rowKey i))) with
    | none =>
      dsimp only
      have hnotdedup : rowKey i row ∉ dedupFirst (seen.map (rowKey i)) :=
        (aIdxOf?_eq_none_iff _ _).mp hfound
      have hnotseen : rowKey i row ∉ seen.map (rowKey i) := fun hc =>
        hnotdedup ((dedupFirst_mem _ _).mpr hc)
      have hdedup' :
          dedupFirst ((seen ++ [row]).map (rowKey i))
            = dedupFirst (seen.map (rowKey i)) ++ [rowKey i row] := by
        rw [List.map_append, List.map_singleton,
          dedupFirst_append_singleton, if_neg hnotseen]
      have hm' : ∀ k, aLookup ((rowKey i row,
            (dedupFirst (seen.map (rowKey i))).length) :: map) k
          = aIdxOf? k (dedupFirst ((seen ++ [row]).map (rowKey i))) := by
        intro k
        rw [hdedup', aIdxOf?_append_singleton]
        unfold aLookup
        by_cases hk : rowKey i row = k
        · subst hk
          rw [if_pos (by simp), hfound]
          simp
        · rw [if_neg (by simpa using hk)]
          rw [hm k]
          cases hf2 : aIdxOf? k (dedupFirst (seen.map (rowKey i))) with
          | some j => simp
          | none => simp [hk]
      have hg' : groups ++ [⟨[row]⟩]
          = (dedupFirst ((seen ++ [row]).map (rowKey i))).map
              (fun key => ⟨(seen ++ [row]).filter
                fun r => rowKey i r == key⟩) := by
        rw [hdedup', List.map_append, List.map_singleton]
        congr 1
        · rw [hg]
          refine List.map_congr_left ?_
          intro kk hkk
          have hkkne : rowKey i row ≠ kk := by
            intro hc
            exact hnotdedup (hc ▸ hkk)
          congr 1
          rw [List.filter_append]
          rw [show List.filter (fun r => rowKey i r == kk) [row] = []
            from by simp [hkkne]]
          simp
        · congr 1
          rw [List.filter_append,
            filter_key_eq_nil i (rowKey i row) seen hnotseen]
          simp
      have := ih (seen ++ [row])
        ((rowKey i row, (dedupFirst (seen.map (rowKey i))).length) :: map)
        (groups ++ [⟨[row]⟩])
        (fun r hr => hlen r (List.mem_cons_of_mem row hr)) hm' hg'
      rw [hdedup'] at this
      simpa using this
    | some idx =>
      dsimp only
      have hgets : (dedupFirst (seen.map (rowKey i)))[idx]?
          = some (rowKey i row) := aIdxOf?_getElem _ _ idx hfound
      have hmemdedup : rowKey i row ∈ dedupFirst (seen.map (rowKey i)) := by
        rcases List.getElem?_eq_some_iff.mp hgets with ⟨hlt, heq⟩
        exact heq ▸ List.getElem_mem hlt
      have hmemseen : rowKey i row ∈ seen.map (rowKey i) :=
        (dedupFirst_mem _ _).mp hmemdedup
      have hgroupsidx : groups[idx]?
          = some ⟨seen.filter fun r => rowKey i r == rowKey i row⟩ := by
        rw [hg, List.getElem?_map, hgets]
        rfl
      rw [hgroupsidx]
      have hdedup' :
          dedupFirst ((seen ++ [row]).map (rowKey i))
            = dedupFirst (seen.map (rowKey i)) := by
        rw [List.map_append, List.map_singleton,
          dedupFirst_append_singleton, if_pos hmemseen, List.append_nil]
      have hg' : groups.set idx
            ⟨(seen.filter fun r => rowKey i r == rowKey i row) ++ [row]⟩
          = (dedupFirst ((seen ++ [row]).map (rowKey i))).map
              (fun key => ⟨(seen ++ [row]).filter
                fun r => rowKey i r == key⟩) := by
        rw [hdedup']
        rw [map_set_of_idx (dedupFirst (seen.map (rowKey i)))
          (rowKey i row) idx (dedupFirst_nodup _) hfound
          (fun kk => (⟨seen.filter fun r => rowKey i r == kk⟩ : GQLGroup))
          (fun kk => (⟨(seen ++ [row]).filter
            fun r => rowKey i r == kk⟩ : GQLGroup))
          (by
            intro kk hkk
            dsimp only
            congr 1
            rw [List.filter_append]
            rw [show List.filter (fun r => rowKey i r == kk) [row] = []
              from by simp [Ne.symm hkk]]
            simp)]
        rw [← hg]
        congr 1
        rw [List.filter_append]
        simp
      have := ih (seen ++ [row]) map
        (groups.set idx
          ⟨(seen.filter fun r => rowKey i r == rowKey i row) ++ [row]⟩)
        (fun r hr => hlen r (List.mem_cons_of_mem row hr))
        (fun k => by rw [hm k, hdedup']) hg'
      rw [hdedup'] at this
      simpa using this

theorem flatten_filter_perm (i : Nat) :
    ∀ (K : List String) (rows : List Row), K.Nodup →
      (∀ r ∈ rows, rowKey i r ∈ K) →
      ((K.map fun kk => rows.filter
        fun r => rowKey i r == kk)).flatten.Perm rows := by
  intro K
  induction K with
  | nil =>
    intro rows _ hcov
    cases rows with
    | nil => simp
    | cons r rs =>
      exact absurd (hcov r (List.mem_cons_self r rs)) (List.not_mem_nil _)
  | cons kk K' ih =>
    intro rows hnd hcov
    rcases List.nodup_cons.mp hnd with ⟨hkk, hnd'⟩
    simp only [List.map_cons, List.flatten_cons]
    have hmap : K'.map (fun k2 => rows.filter fun r => rowKey i r == k2)
        = K'.map (fun k2 => (rows.filter fun r => !(rowKey i r == kk)).filter
            fun r => rowKey i r == k2) := by
      refine List.map_congr_left ?_
      intro k2 hk2
      rw [List.filter_filter]
      refine (List.filter_congr ?_).symm
      intro r _
      by_cases hr : rowKey i r = k2
      · have hne : ¬(k2 = kk) := fun hc => hkk (hc ▸ hk2)
        simp [hr, hne]
      · simp [hr]
    rw [hmap]
    have hcov' : ∀ r ∈ rows.filter (fun r => !(rowKey i r == kk)),
        rowKey i r ∈ K' := by
      intro r hr
      rcases List.mem_filter.mp hr with ⟨hrm, hcond⟩
      rcases List.mem_cons.mp (hcov r hrm) with h | h
      · simp [h] at hcond
      · exact h
    have hperm := ih (rows.filter fun r => !(rowKey i r == kk)) hnd' hcov'
    refine (hperm.append_left
      (rows.filter fun r => rowKey i r == kk)).trans ?_
    exact List.filter_append_perm _ rows

theorem canon_flatten_perm (i : Nat) (rows : List Row) :
    ((canonGroups i rows).map GQLGroup.rows).flatten.Perm rows := by
  unfold canonGroups
  rw [List.map_map]
  have hcomp : (GQLGroup.rows ∘ fun key =>
      (⟨rows.filter fun r => rowKey i r == key⟩ : GQLGroup))
      = fun key => rows.filter fun r => rowKey i r == key := rfl
  rw [hcomp]
  refine flatten_filter_perm i _ rows (dedupFirst_nodup _) ?_
  intro r hr
  exact (dedupFirst_mem _ _).mpr (List.mem_map_of_mem (rowKey i) hr)

/-- C4: on a one-group object whose titles contain `field_name` (first at
index `i`) and whose rows all have a cell there, `execute_group_by`
produces exactly the canonical partition: one group per distinct
`as_text()` key in order of first occurrence, each group holding, in
their original relative order, precisely the rows with that key; the
concatenation of the groups is a permutation of the input rows (no row
lost or duplicated), and two rows share a group iff their keys' `as_text`
forms agree — all of which the canonical-form equality expresses. -/
theorem C4_group_by_partition (field : String) (titles : List String)
    (rows : List Row) (i : Nat)
    (hidx : aIdxOf? field titles = some i)
    (hlen : ∀ r ∈ rows, i < r.values.length) :
    execute_group_by_statement field ⟨titles, [⟨rows⟩]⟩
      = .ok ⟨titles, canonGroups i rows⟩
    ∧ ((canonGroups i rows).map GQLGroup.rows).flatten.Perm rows := by
  refine ⟨?_, canon_flatten_perm i rows⟩
  cases rows with
  | nil => rfl
  | cons r rs =>
    unfold execute_group_by_statement
    simp only [List.isEmpty_cons, Bool.false_eq_true, if_false]
    have := groupByLoop_canon titles field i hidx (r :: rs) [] [] []
      hlen (fun k => rfl) rfl
    simp only [List.map_nil, List.nil_append] at this
    rw [show (dedupFirst ([] : List String)).length = 0 from rfl] at this
    rw [this]
    rfl

/-- Witness for C4: grouping three rows by a Text column with two distinct
keys. -/
theorem C4_group_by_partition_witness :
    execute_group_by_statement "g"
        ⟨["g"], [⟨[⟨[.Text "a"]⟩, ⟨[.Text "b"]⟩, ⟨[.Text "a"]⟩]⟩]⟩
      = .ok ⟨["g"],
          canonGroups 0 [⟨[.Text "a"]⟩, ⟨[.Text "b"]⟩, ⟨[.Text "a"]⟩]⟩
    ∧ ((canonGroups 0
          [⟨[.Text "a"]⟩, ⟨[.Text "b"]⟩, ⟨[.Text "a"]⟩]).map
        GQLGroup.rows).flatten.Perm
        [⟨[.Text "a"]⟩, ⟨[.Text "b"]⟩, ⟨[.Text "a"]⟩] :=
  C4_group_by_partition "g" ["g"]
    [⟨[.Text "a"]⟩, ⟨[.Text "b"]⟩, ⟨[.Text "a"]⟩] 0 (by rfl)
    (by intro r hr; fin_cases hr <;> decide)

/-! ### The SELECT pipeline (claim C1)
(src/crates/gitql-engine/src/engine.rs lines 49-205 and
src/crates/gitql-engine/src/engine_executor.rs) -/

/-- Per-key lookup in a string-to-string `HashMap`. -/
def aLookupStr (m : List (String × String)) (k : String) : Option String :=
  match m with
  | [] => none
  | (k', v) :: rest => if k' == k then some v else aLookupStr rest k

/-- Modelled from the spec: `get_column_name` (engine_function.rs is not
under src/): the display name of a selected field is its alias when one is
recorded in the alias table, otherwise the field name itself. -/
def get_column_name (alias_table : List (String × String))
    (name : String) : String :=
  (aLookupStr alias_table name).getD name

/-- Modelled from the spec: the row source `select_gql_objects`
(engine_function.rs is not under src/): given the environment, the table
name, the selected field names, the current titles, the field expressions
and the repository index, produce the table's rows or an error. -/
def RowSource : Type :=
  Environment → String → List String → List String → List Expr → Nat →
    Except String (List Row)

/-- `SelectStatement` (statement.rs). -/
structure SelectStatement where
  table_name : String
  fields_names : List String
  fields_values : List Expr
  alias_table : List (String × String)
  is_distinct : Bool

/-- The selected field names extended by the hidden selections not
already present (only for real tables), mirroring the loop at the top of
`execute_select_statement`. -/
def selectFieldsNames (st : SelectStatement) (hidden : List String) :
    List String :=
  if st.table_name ≠ "" then
    hidden.foldl
      (fun acc h => if acc.contains h then acc else acc ++ [h])
      st.fields_names
  else st.fields_names

/-- `execute_select_statement` (engine_executor.rs lines 105-147): append
the hidden selections to the field names, push the titles (once per call,
also on repeated calls for further repositories), fetch the rows, and
either create the main group or append to it. -/
def execute_select_statement (env : Environment) (source : RowSource)
    (repoIdx : Nat) (st : SelectStatement) (hidden : List String)
    (obj : GitQLObject) : Except String GitQLObject := do
  let fields_names := selectFieldsNames st hidden
  let titles := obj.titles ++ fields_names.map (get_column_name st.alias_table)
  let rows ← source env st.table_name fields_names titles st.fields_values
    repoIdx
  match obj.groups with
  | [] => pure ⟨titles, [⟨rows⟩]⟩
  | g :: rest => pure ⟨titles, ⟨g.rows ++ rows⟩ :: rest⟩

/-- `execute_where_statement` (lines 149-185): filter the first group by
the boolean value of the condition, then remove the first group and push
the filtered one at the end. -/
def execute_where_statement (env : Environment) (condition : Expr)
    (obj : GitQLObject) : Except String GitQLObject :=
  match obj.groups with
  | [] => .ok obj
  | first :: rest => do
    let filtered ← first.rows.foldlM (fun acc row => do
        let v ← condition.eval env obj.titles row.values
        pure (if v.as_bool then acc ++ [row] else acc)) ([] : List Row)
    .ok ⟨obj.titles, rest ++ [⟨filtered⟩]⟩

/-- `execute_having_statement` (lines 187-227): like Where, but first
`flat()`s multi-group objects. -/
def execute_having_statement (env : Environment) (condition : Expr)
    (obj : GitQLObject) : Except String GitQLObject :=
  match obj.groups with
  | [] => .ok obj
  | _ =>
    match (if obj.groups.length > 1 then obj.flat else obj) with
    | ⟨t, []⟩ => .ok ⟨t, []⟩
    | ⟨t, first :: rest⟩ => do
      let filtered ← first.rows.foldlM (fun acc row => do
          let v ← condition.eval env t row.values
          pure (if v.as_bool then acc ++ [row] else acc)) ([] : List Row)
      .ok ⟨t, rest ++ [⟨filtered⟩]⟩

/-- `AggregateValue` (statement.rs, engine revision used by the
executor): a registered aggregate call or a hoisted expression. -/
inductive AggregateValue where
  | function (name : String) (argument : String)
  | expression (e : Expr)

/-- Splicing an aggregation result into a row at the result column:
overwrite when the column exists, extend the row otherwise. -/
def updateRowAt (ci : Nat) (result : Value) (row : Row) : Row :=
  if ci < row.values.length then ⟨row.values.set ci result⟩
  else ⟨row.values ++ [result]⟩

/-- One `Function` entry of the aggregations map applied to a group:
resolve the result column (alias-aware), look the aggregate up in the
registry, evaluate it over the whole group and splice the result into
every row.  `Expression` entries pass through in this first phase. -/
def aggFnStep (titles : List String) (alias_table : List (String × String))
    (g : GQLGroup) (p : String × AggregateValue) :
    Except String GQLGroup :=
  match p.2 with
  | .function fname argument =>
    match aIdxOf? (get_column_name alias_table p.1) titles with
    | none => Except.error "panic: aggregation result column not found"
    | some ci =>
      match AGGREGATIONS fname with
      | none => Except.error "panic: unknown aggregation function"
      | some f =>
        match f argument titles g with
        | none => Except.error "panic: aggregation function aborted"
        | some result => pure ⟨g.rows.map (updateRowAt ci result)⟩
  | .expression _ => pure g

/-- One `Expression` entry of the aggregations map applied to a group:
evaluate the hoisted expression per row (over the already-updated rows)
and splice each result in.  `Function` entries pass through in this
second phase. -/
def aggExprStep (env : Environment) (titles : List String)
    (alias_table : List (String × String)) (g : GQLGroup)
    (p : String × AggregateValue) : Except String GQLGroup :=
  match p.2 with
  | .expression e =>
    match aIdxOf? (get_column_name alias_table p.1) titles with
    | none => Except.error "panic: aggregation result column not found"
    | some ci => do
      let newRows ← g.rows.foldlM (fun acc row => do
        let result ← e.eval env titles row.values
        pure (acc ++ [updateRowAt ci result row])) ([] : List Row)
      pure (⟨newRows⟩ : GQLGroup)
  | .function _ _ => pure g

/-- The per-group body of `execute_aggregation_function_statement`: skip
empty groups, run the function pass then the expression pass, and — when
group by produced several groups — keep only the first row. -/
def aggregateGroup (env : Environment)
    (aggregations : List (String × AggregateValue))
    (alias_table : List (String × String)) (titles : List String)
    (groups_count : Nat) (group : GQLGroup) : Except String GQLGroup :=
  if group.rows.isEmpty then pure group
  else do
    let g1 ← aggregations.foldlM (aggFnStep titles alias_table) group
    let g2 ← aggregations.foldlM (aggExprStep env titles alias_table) g1
    if groups_count > 1 then pure ⟨g2.rows.take 1⟩ else pure g2

/-- `execute_aggregation_function_statement` (lines 373-459): for each
non-empty group, first resolve every `Function` aggregation over the
whole group and splice its result into every row, then evaluate every
`Expression` aggregation per row; finally, when more than one group
existed on entry (group by ran), collapse each group to its first row.
The `HashMap` iteration over the aggregations map is modelled as a list
iteration (the claims are insensitive to the order). -/
def execute_aggregation_function_statement (env : Environment)
    (aggregations : List (String × AggregateValue))
    (alias_table : List (String × String)) (obj : GitQLObject) :
    Except String GitQLObject :=
  if aggregations.isEmpty then .ok obj
  else do
    let newGroups ← obj.groups.foldlM (fun acc group => do
      let g' ← aggregateGroup env aggregations alias_table obj.titles
        obj.groups.length group
      pure (acc ++ [g'])) ([] : List GQLGroup)
    pure ⟨obj.titles, newGroups⟩

/-- The row scan of `apply_distinct_on_objects_group` (engine.rs lines
180-198): fingerprint the first `tcount` cells of each row by their
display strings and keep first occurrences.  The `DefaultHasher` 64-bit
fingerprint is modelled as the string list itself (collision-free
abstraction); `none`-style panics surface as `.error`. -/
def distinctLoop (O : ExternalOps) (tcount : Nat) :
    List Row → List (List String) → List Row → Except String (List Row)
  | [], _, accRows => .ok accRows
  | row :: rest, seen, accRows =>
    match (List.range tcount).mapM (fun idx => row.values[idx]?) with
    | none => .error "panic: distinct cell index out of bounds"
    | some vals =>
      let kstr := vals.map (Value.display O)
      if seen.contains kstr then distinctLoop O tcount rest seen accRows
      else distinctLoop O tcount rest (kstr :: seen) (accRows ++ [row])

/-- `apply_distinct_on_objects_group` (engine.rs lines 163-205): filter
the hidden titles out, deduplicate the main group's rows by the visible
fingerprint, and replace the rows only when the count changed. -/
def apply_distinct_on_objects_group (O : ExternalOps)
    (hidden : List String) (obj : GitQLObject) :
    Except String GitQLObject :=
  match obj.groups with
  | [] => .ok obj
  | g0 :: rest => do
    let titles := obj.titles.filter fun s => !hidden.contains s
    let newRows ← distinctLoop O titles.length g0.rows [] []
    if g0.rows.length ≠ newRows.length then
      pure ⟨obj.titles, ⟨newRows⟩ :: rest⟩
    else pure obj

/-- The compiled `SELECT` query (`GQLQuery` in statement.rs): the
statements map keyed by clause kind becomes one optional field per
clause. -/
structure GQLQuery where
  select : Option SelectStatement
  whereCond : Option Expr
  groupBy : Option String
  aggregation : Option (List (String × AggregateValue))
  having : Option Expr
  orderBy : Option OrderByStatement
  offset : Option Nat
  limit : Option Nat
  hidden_selections : List String
  has_group_by_statement : Bool
  has_aggregation_function : Bool

/-- The `select` arm of the command loop in `evaluate_select_query`
(engine.rs lines 66-119): copy the alias table, execute the select once
(empty table name) or once per repository, short-circuit when the main
group is empty (the returned flag), and apply distinct for real tables.
-/
def runSelectPhase (O : ExternalOps) (env : Environment)
    (source : RowSource) (repoCount : Nat) (q : GQLQuery) :
    Except String (GitQLObject × List (String × String) × Bool) :=
  match q.select with
  | none => .ok (⟨[], []⟩, [], false)
  | some st =>
    if st.table_name = "" then do
      let obj ← execute_select_statement env source 0 st
        q.hidden_selections ⟨[], []⟩
      if obj.groups.isEmpty || (obj.groups.headD ⟨[]⟩).rows.isEmpty then
        pure (obj, st.alias_table, true)
      else pure (obj, st.alias_table, false)
    else do
      let obj ← (List.range repoCount).foldlM
        (fun acc repoIdx =>
          execute_select_statement env source repoIdx st
            q.hidden_selections acc) (⟨[], []⟩ : GitQLObject)
      if obj.groups.isEmpty || (obj.groups.headD ⟨[]⟩).rows.isEmpty then
        pure (obj, st.alias_table, true)
      else if st.is_distinct then do
        let obj2 ← apply_distinct_on_objects_group O
          q.hidden_selections obj
        pure (obj2, st.alias_table, false)
      else pure (obj, st.alias_table, false)

/-- The post-pipeline row collapse (engine.rs lines 135-154). -/
def collapseGroups (q : GQLQuery) (obj : GitQLObject) : GitQLObject :=
  if obj.groups.length > 1 then
    ⟨obj.titles, obj.groups.map fun g =>
      if g.rows.length > 1 then ⟨g.rows.take 1⟩ else g⟩
  else if obj.groups.length = 1 ∧ ¬q.has_group_by_statement
      ∧ q.has_aggregation_function then
    ⟨obj.titles, obj.groups.map fun g =>
      if g.rows.length > 1 then ⟨g.rows.take 1⟩ else g⟩
  else obj

/-- A clause of the statements map is executed when present, otherwise the
object passes through (`if statements_map.contains_key(gql_command)`). -/
def applyStage {α : Type}
    (f : α → GitQLObject → Except String GitQLObject) :
    Option α → GitQLObject → Except String GitQLObject
  | none, obj => .ok obj
  | some a, obj => f a obj

/-- `evaluate_select_query` (engine.rs lines 49-161): the clauses run in
the fixed order select, where, group, aggregation, having, order, offset,
limit, then the post-group collapse; `repos.first().unwrap()` panics when
no repository is supplied. -/
def evaluate_select_query (O : ExternalOps) (env : Environment)
    (source : RowSource) (repoCount : Nat) (q : GQLQuery) :
    Except String GitQLObject := do
  if repoCount = 0 then
    Except.error "panic: repos.first() on an empty slice"
  else do
    let (obj1, aliasTable, earlyDone) ←
      runSelectPhase O env source repoCount q
    if earlyDone then pure obj1
    else do
      let obj2 ← applyStage (execute_where_statement env) q.whereCond obj1
      let obj3 ← applyStage execute_group_by_statement q.groupBy obj2
      let obj4 ← applyStage
        (fun aggs =>
          execute_aggregation_function_statement env aggs aliasTable)
        q.aggregation obj3
      let obj5 ← applyStage (execute_having_statement env) q.having obj4
      let obj6 ← applyStage (execute_order_by_statement env) q.orderBy obj5
      let obj7 ← applyStage
        (fun k obj => .ok (execute_offset_statement k obj)) q.offset obj6
      let obj8 ← applyStage
        (fun n obj => .ok (execute_limit_statement n obj)) q.limit obj7
      pure (collapseGroups q obj8)

/-- Titles/rows parity: every row of every group has exactly one value
per title. -/
def rowsParity (obj : GitQLObject) : Prop :=
  ∀ g ∈ obj.groups, ∀ r ∈ g.rows, r.values.length = obj.titles.length

/-- A row source returning, for any request, one row with one
`Integer 1` per requested field (so it always satisfies the claim's
row-length assumption). -/
def sourceOneIntPerField : RowSource :=
  fun _ _ fields _ _ _ => .ok [⟨fields.map fun _ => Value.Integer 1⟩]

/-- `SELECT a FROM t` with no aliases, hidden selections, aggregates or
further clauses. -/
def qSelectA : GQLQuery :=
  ⟨some ⟨"t", ["a"], [], [], false⟩, none, none, none, none, none, none,
    none, [], false, false⟩

/-- C1 counterexample: with two repositories, `execute_select_statement`
pushes the titles once per repository, so the result has titles
`["a", "a"]` while every row still has a single value — parity fails even
though the row source honours the claim's assumption. -/
theorem C1_counterexample :
    (∀ env tbl fields titles vals idx rows,
        sourceOneIntPerField env tbl fields titles vals idx = .ok rows →
        ∀ r ∈ rows, r.values.length = fields.length)
    ∧ evaluate_select_query trivialOps emptyEnv sourceOneIntPerField 2
        qSelectA
      = .ok ⟨["a", "a"], [⟨[⟨[.Integer 1]⟩, ⟨[.Integer 1]⟩]⟩]⟩
    ∧ ¬ rowsParity ⟨["a", "a"], [⟨[⟨[.Integer 1]⟩, ⟨[.Integer 1]⟩]⟩]⟩ := by
  refine ⟨?_, by rfl, ?_⟩
  · intro env tbl fields titles vals idx rows h r hr
    have hrows : rows = [⟨fields.map fun _ => Value.Integer 1⟩] := by
      have := h
      injection this with h2
      exact h2.symm
    subst hrows
    rcases List.mem_singleton.mp hr with rfl
    simp
  · intro h
    have := h ⟨[⟨[.Integer 1]⟩, ⟨[.Integer 1]⟩]⟩ (by simp)
      ⟨[.Integer 1]⟩ (by simp)
    simp at this

theorem rowsParity_flat (obj : GitQLObject) (h : rowsParity obj) :
    rowsParity obj.flat := by
  intro g hg r hr
  rcases List.mem_singleton.mp hg with rfl
  rcases List.mem_flatten.mp hr with ⟨rl, hrl, hrmem⟩
  rcases List.mem_map.mp hrl with ⟨g0, hg0, rfl⟩
  exact h g0 hg0 r hrmem

theorem rowsParity_withMainGroup (f : List Row → List Row)
    (hf : ∀ rows r, r ∈ f rows → r ∈ rows) (obj : GitQLObject)
    (h : rowsParity obj) : rowsParity (withMainGroup f obj) := by
  unfold withMainGroup
  by_cases hemp : obj.groups.isEmpty
  · rw [if_pos hemp]
    exact h
  · rw [if_neg hemp]
    have hobj1 :
        rowsParity (if obj.groups.length > 1 then obj.flat else obj) := by
      split
      · exact rowsParity_flat obj h
      · exact h
    generalize (if obj.groups.length > 1 then obj.flat else obj) = obj1
      at hobj1 ⊢
    rcases obj1 with ⟨t1, gs1⟩
    cases gs1 with
    | nil =>
      intro g' hg' r hr
      simp at hg'
    | cons g1 rest1 =>
      intro g' hg' r hr
      rcases List.mem_cons.mp hg' with rfl | hg'
      · exact hobj1 g1 (List.mem_cons_self _ _) r (hf g1.rows r hr)
      · exact hobj1 g' (List.mem_cons_of_mem _ hg') r hr

theorem exceptBind_ok {ε α β : Type} (v : α) (f : α → Except ε β) :
    (Except.ok v >>= f) = f v := rfl

theorem exceptBind_err {ε α β : Type} (e : ε) (f : α → Except ε β) :
    ((Except.error e : Except ε α) >>= f) = Except.error e := rfl

theorem exceptPure_bind {ε α β : Type} (v : α) (f : α → Except ε β) :
    ((pure v : Except ε α) >>= f) = f v := rfl

theorem whereFold_subset (env : Environment) (cond : Expr)
    (titles : List String) :
    ∀ (rows acc out : List Row),
      rows.foldlM (fun acc row => do
        let v ← cond.eval env titles row.values
        pure (if v.as_bool then acc ++ [row] else acc)) acc = .ok out →
      ∀ r ∈ out, r ∈ acc ∨ r ∈ rows := by
  intro rows
  induction rows with
  | nil =>
    intro acc out h r hr
    injection h with h2
    subst h2
    exact Or.inl hr
  | cons row rest ih =>
    intro acc out h r hr
    rw [List.foldlM_cons] at h
    cases hev : cond.eval env titles row.values with
    | error e =>
      rw [hev] at h
      simp only [exceptBind_err] at h
      cases h
    | ok v =>
      rw [hev] at h
      simp only [exceptBind_ok, exceptPure_bind] at h
      rcases ih _ out h r hr with hacc | hrest
      · by_cases hb : v.as_bool
        · rw [if_pos hb] at hacc
          rcases List.mem_append.mp hacc with h1 | h1
          · exact Or.inl h1
          · exact Or.inr (List.mem_cons.mpr
              (Or.inl (List.mem_singleton.mp h1)))
        · rw [if_neg hb] at hacc
          exact Or.inl hacc
      · exact Or.inr (List.mem_cons_of_mem row hrest)

theorem rowsParity_where (env : Environment) (cond : Expr)
    (obj obj' : GitQLObject)
    (h : execute_where_statement env cond obj = .ok obj')
    (hp : rowsParity obj) : rowsParity obj' := by
  unfold execute_where_statement at h
  rcases obj with ⟨t, gs⟩
  cases gs with
  | nil =>
    injection h with h2
    subst h2
    exact hp
  | cons first rest =>
    dsimp only at h
    cases hfold : List.foldlM (fun acc row => do
        let v ← cond.eval env t row.values
        pure (if v.as_bool then acc ++ [row] else acc)) ([] : List Row)
        first.rows with
    | error e =>
      rw [hfold] at h
      simp only [exceptBind_err] at h
      cases h
    | ok filtered =>
      rw [hfold] at h
      simp only [exceptBind_ok, exceptPure_bind] at h
      injection h with h2
      subst h2
      intro g' hg' r hr
      rcases List.mem_append.mp hg' with hg' | hg'
      · exact hp g' (List.mem_cons_of_mem first hg') r hr
      · rcases List.mem_singleton.mp hg' with rfl
        rcases whereFold_subset env cond t first.rows [] filtered hfold
            r hr with hc | hc
        · simp at hc
        · exact hp first (List.mem_cons_self _ _) r hc

theorem rowsParity_having (env : Environment) (cond : Expr)
    (obj obj' : GitQLObject)
    (h : execute_having_statement env cond obj = .ok obj')
    (hp : rowsParity obj) : rowsParity obj' := by
  unfold execute_having_statement at h
  rcases obj with ⟨t, gs⟩
  cases gs with
  | nil =>
    injection h with h2
    subst h2
    exact hp
  | cons g0 rest0 =>
    have hobj1 : rowsParity
        (if (⟨t, g0 :: rest0⟩ : GitQLObject).groups.length > 1 then
          (⟨t, g0 :: rest0⟩ : GitQLObject).flat else ⟨t, g0 :: rest0⟩) := by
      split
      · exact rowsParity_flat _ hp
      · exact hp
    have htit1 :
        (if (⟨t, g0 :: rest0⟩ : GitQLObject).groups.length > 1 then
          (⟨t, g0 :: rest0⟩ : GitQLObject).flat
          else ⟨t, g0 :: rest0⟩).titles = t := by
      split
      · rfl
      · rfl
    generalize (if (⟨t, g0 :: rest0⟩ : GitQLObject).groups.length > 1 then
        (⟨t, g0 :: rest0⟩ : GitQLObject).flat else ⟨t, g0 :: rest0⟩) = obj1
      at hobj1 htit1 h
    rcases obj1 with ⟨t1, gs1⟩
    cases htit1
    cases gs1 with
    | nil =>
      injection h with h2
      subst h2
      intro g' hg' r hr
      simp at hg'
    | cons first rest =>
      dsimp only at h
      cases hfold : List.foldlM (fun acc row => do
          let v ← cond.eval env t1 row.values
          pure (if v.as_bool then acc ++ [row] else acc)) ([] : List Row)
          first.rows with
      | error e =>
        rw [hfold] at h
        simp only [exceptBind_err] at h
        cases h
      | ok filtered =>
        rw [hfold] at h
        simp only [exceptBind_ok, exceptPure_bind] at h
        injection h with h2
        subst h2
        intro g' hg' r hr
        rcases List.mem_append.mp hg' with hg' | hg'
        · exact hobj1 g' (List.mem_cons_of_mem first hg') r hr
        · rcases List.mem_singleton.mp hg' with rfl
          rcases whereFold_subset env cond t1 first.rows [] filtered hfold
              r hr with hc | hc
          · simp at hc
          · exact hobj1 first (List.mem_cons_self _ _) r hc

theorem groupByLoop_rows_mem (titles : List String) (field : String) :
    ∀ (rows : List Row) (map : List (String × Nat)) (nextIdx : Nat)
      (groups out : List GQLGroup),
      groupByLoop titles field rows map nextIdx groups = .ok out →
      ∀ g ∈ out, ∀ r ∈ g.rows,
        (∃ g0 ∈ groups, r ∈ g0.rows) ∨ r ∈ rows := by
  intro rows
  induction rows with
  | nil =>
    intro map nextIdx groups out h g hg r hr
    injection h with h2
    subst h2
    exact Or.inl ⟨g, hg, hr⟩
  | cons row rest ih =>
    intro map nextIdx groups out h g hg r hr
    unfold groupByLoop at h
    cases hidx : aIdxOf? field titles with
    | none =>
      rw [hidx] at h
      cases h
    | some fi =>
      rw [hidx] at h
      dsimp only at h
      cases hval : row.values[fi]? with
      | none =>
        rw [hval] at h
        cases h
      | some v =>
        rw [hval] at h
        dsimp only at h
        cases hlook : aLookup map v.as_text with
        | none =>
          rw [hlook] at h
          dsimp only at h
          rcases ih _ _ _ out h g hg r hr with ⟨g0, hg0, hrg0⟩ | hrest
          · rcases List.mem_append.mp hg0 with hg0 | hg0
            · exact Or.inl ⟨g0, hg0, hrg0⟩
            · rcases List.mem_singleton.mp hg0 with rfl
              rcases List.mem_singleton.mp hrg0 with rfl
              exact Or.inr (List.mem_cons_self _ _)
          · exact Or.inr (List.mem_cons_of_mem row hrest)
        | some idx =>
          rw [hlook] at h
          dsimp only at h
          cases hget : groups[idx]? with
          | none =>
            rw [hget] at h
            cases h
          | some tg =>
            rw [hget] at h
            dsimp only at h
            rcases ih _ _ _ out h g hg r hr with ⟨g0, hg0, hrg0⟩ | hrest
            · rcases List.mem_or_eq_of_mem_set hg0 with hg0 | rfl
              · exact Or.inl ⟨g0, hg0, hrg0⟩
              · rcases List.mem_append.mp hrg0 with hrg0 | hrg0
                · refine Or.inl ⟨tg, ?_, hrg0⟩
                  rcases List.getElem?_eq_some_iff.mp hget with ⟨hlt, heq⟩
                  exact heq ▸ List.getElem_mem hlt
                · rcases List.mem_singleton.mp hrg0 with rfl
                  exact Or.inr (List.mem_cons_self _ _)
            · exact Or.inr (List.mem_cons_of_mem row hrest)

theorem rowsParity_groupBy (field : String) (obj obj' : GitQLObject)
    (h : execute_group_by_statement field obj = .ok obj')
    (hp : rowsParity obj) : rowsParity obj' := by
  unfold execute_group_by_statement at h
  rcases obj with ⟨t, gs⟩
  cases gs with
  | nil =>
    injection h with h2
    subst h2
    exact hp
  | cons main rest =>
    dsimp only at h
    by_cases hemp : main.rows.isEmpty
    · rw [if_pos hemp] at h
      injection h with h2
      subst h2
      intro g' hg' r hr
      exact hp g' (List.mem_cons_of_mem main hg') r hr
    · rw [if_neg hemp] at h
      cases hloop : groupByLoop t field main.rows [] 0 rest with
      | error e =>
        rw [hloop] at h
        cases h
      | ok gs' =>
        rw [hloop] at h
        injection h with h2
        subst h2
        intro g' hg' r hr
        rcases groupByLoop_rows_mem t field main.rows [] 0 rest gs' hloop
            g' hg' r hr with ⟨g0, hg0, hrg0⟩ | hrow
        · exact hp g0 (List.mem_cons_of_mem main hg0) r hrg0
        · exact hp main (List.mem_cons_self _ _) r hrow

theorem insertByM_subset {α : Type} (c : α → α → Option Ordering) (x : α) :
    ∀ (l out : List α), insertByM c x l = some out →
      ∀ r ∈ out, r = x ∨ r ∈ l := by
  intro l
  induction l with
  | nil =>
    intro out h r hr
    injection h with h2
    subst h2
    exact Or.inl (List.mem_singleton.mp hr)
  | cons y ys ih =>
    intro out h r hr
    unfold insertByM at h
    cases hc : c x y with
    | none =>
      rw [hc] at h
      cases h
    | some o =>
      rw [hc] at h
      dsimp only at h
      by_cases ho : o = .lt
      · rw [if_pos ho] at h
        injection h with h2
        subst h2
        rcases List.mem_cons.mp hr with rfl | hr
        · exact Or.inl rfl
        · exact Or.inr hr
      · rw [if_neg ho] at h
        cases hins : insertByM c x ys with
        | none =>
          rw [hins] at h
          cases h
        | some zs =>
          rw [hins] at h
          injection h with h2
          subst h2
          rcases List.mem_cons.mp hr with rfl | hr
          · exact Or.inr (List.mem_cons_self _ _)
          · rcases ih zs hins r hr with h1 | h1
            · exact Or.inl h1
            · exact Or.inr (List.mem_cons_of_mem y h1)

theorem sortByM_subset {α : Type} (c : α → α → Option Ordering) :
    ∀ (rest acc out : List α),
      rest.foldlM (fun acc x => insertByM c x acc) acc = some out →
      ∀ r ∈ out, r ∈ acc ∨ r ∈ rest := by
  intro rest
  induction rest with
  | nil =>
    intro acc out h r hr
    injection h with h2
    subst h2
    exact Or.inl hr
  | cons x xs ih =>
    intro acc out h r hr
    rw [List.foldlM_cons] at h
    cases hins : insertByM c x acc with
    | none =>
      rw [hins] at h
      cases h
    | some acc' =>
      rw [hins] at h
      simp only [Option.bind_eq_bind, Option.some_bind] at h
      rcases ih acc' out h r hr with h1 | h1
      · rcases insertByM_subset c x acc acc' hins r h1 with rfl | h2
        · exact Or.inr (List.mem_cons_self _ _)
        · exact Or.inl h2
      · exact Or.inr (List.mem_cons_of_mem x h1)

theorem rowsParity_orderBy (env : Environment) (st : OrderByStatement)
    (obj obj' : GitQLObject)
    (h : execute_order_by_statement env st obj = .ok obj')
    (hp : rowsParity obj) : rowsParity obj' := by
  unfold execute_order_by_statement at h
  by_cases hemp : obj.groups.isEmpty
  · rw [if_pos hemp] at h
    injection h with h2
    subst h2
    exact hp
  · rw [if_neg hemp] at h
    have hobj1 :
        rowsParity (if obj.groups.length > 1 then obj.flat else obj) := by
      split
      · exact rowsParity_flat obj hp
      · exact hp
    generalize (if obj.groups.length > 1 then obj.flat else obj) = obj1
      at hobj1 h
    rcases obj1 with ⟨t1, gs1⟩
    cases gs1 with
    | nil =>
      injection h with h2
      subst h2
      intro g' hg' r hr
      simp at hg'
    | cons g1 rest1 =>
      dsimp only at h
      by_cases hrows : g1.rows.isEmpty
      · rw [if_pos hrows] at h
        injection h with h2
        subst h2
        exact hobj1
      · rw [if_neg hrows] at h
        cases hsort : sortByM
            (fun a b =>
              orderCompareLoop env t1 st.sorting_orders a b st.arguments 0)
            g1.rows with
        | none =>
          rw [hsort] at h
          cases h
        | some rows' =>
          rw [hsort] at h
          injection h with h2
          subst h2
          intro g' hg' r hr
          rcases List.mem_cons.mp hg' with rfl | hg'
          · rcases sortByM_subset _ g1.rows [] rows' hsort r hr with hc | hc
            · simp at hc
            · exact hobj1 g1 (List.mem_cons_self _ _) r hc
          · exact hobj1 g' (List.mem_cons_of_mem _ hg') r hr

theorem foldlM_preserve {β : Type} (P : GQLGroup → Prop)
    (step : GQLGroup → β → Except String GQLGroup)
    (hstep : ∀ g p g', step g p = .ok g' → P g → P g') :
    ∀ (l : List β) (g g' : GQLGroup), l.foldlM step g = .ok g' → P g → P g' := by
  intro l
  induction l with
  | nil =>
    intro g g' h hp
    injection h with h2
    subst h2
    exact hp
  | cons p rest ih =>
    intro g g' h hp
    rw [List.foldlM_cons] at h
    cases hstep1 : step g p with
    | error e =>
      rw [hstep1] at h
      simp only [exceptBind_err] at h
      cases h
    | ok g1 =>
      rw [hstep1] at h
      simp only [exceptBind_ok] at h
      exact ih g1 g' h (hstep g p g1 hstep1 hp)

theorem foldlM_snoc_forall {β γ : Type} (g : β → Except String γ)
    (Q : γ → Prop) :
    ∀ (l : List β) (acc out : List γ),
      l.foldlM (fun acc x => do
        let y ← g x
        pure (acc ++ [y])) acc = .ok out →
      (∀ y ∈ acc, Q y) → (∀ x ∈ l, ∀ y, g x = .ok y → Q y) →
      ∀ y ∈ out, Q y := by
  intro l
  induction l with
  | nil =>
    intro acc out h hacc _ y hy
    injection h with h2
    subst h2
    exact hacc y hy
  | cons x xs ih =>
    intro acc out h hacc hl y hy
    rw [List.foldlM_cons] at h
    cases hgx : g x with
    | error e =>
      rw [hgx] at h
      simp only [exceptBind_err] at h
      cases h
    | ok y1 =>
      rw [hgx] at h
      simp only [exceptBind_ok, exceptPure_bind] at h
      refine ih (acc ++ [y1]) out h ?_
        (fun x' hx' => hl x' (List.mem_cons_of_mem x hx')) y hy
      intro y2 hy2
      rcases List.mem_append.mp hy2 with h1 | h1
      · exact hacc y2 h1
      · rcases List.mem_singleton.mp h1 with rfl
        exact hl x (List.mem_cons_self _ _) y2 hgx

theorem aIdxOf?_lt_length (k : String) (l : List String) (j : Nat)
    (h : aIdxOf? k l = some j) : j < l.length :=
  (List.getElem?_eq_some_iff.mp (aIdxOf?_getElem k l j h)).1

theorem updateRowAt_length (ci : Nat) (result : Value) (row : Row) (n : Nat)
    (hci : ci < n) (hr : row.values.length = n) :
    (updateRowAt ci result row).values.length = n := by
  unfold updateRowAt
  rw [if_pos (by omega)]
  simp [hr]

theorem aggFnStep_parity (titles : List String)
    (alias_table : List (String × String)) :
    ∀ (g : GQLGroup) (p : String × AggregateValue) (g' : GQLGroup),
      aggFnStep titles alias_table g p = .ok g' →
      (∀ r ∈ g.rows, r.values.length = titles.length) →
      (∀ r ∈ g'.rows, r.values.length = titles.length) := by
  intro g p g' h hp
  unfold aggFnStep at h
  rcases p with ⟨name, av⟩
  cases av with
  | expression e =>
    injection h with h2
    subst h2
    exact hp
  | function fname argument =>
    dsimp only at h
    cases hidx : aIdxOf? (get_column_name alias_table name) titles with
    | none =>
      rw [hidx] at h
      cases h
    | some ci =>
      rw [hidx] at h
      dsimp only at h
      cases hagg : AGGREGATIONS fname with
      | none =>
        rw [hagg] at h
        cases h
      | some f =>
        rw [hagg] at h
        dsimp only at h
        cases hres : f argument titles g with
        | none =>
          rw [hres] at h
          cases h
        | some result =>
          rw [hres] at h
          injection h with h2
          subst h2
          intro r hr
          rcases List.mem_map.mp hr with ⟨r0, hr0, rfl⟩
          exact updateRowAt_length ci result r0 titles.length
            (aIdxOf?_lt_length _ _ _ hidx) (hp r0 hr0)

theorem aggExprFold_parity (env : Environment) (titles : List String)
    (e : Expr) (ci : Nat) (hci : ci < titles.length) :
    ∀ (rows acc out : List Row),
      rows.foldlM (fun acc row => do
        let result ← e.eval env titles row.values
        pure (acc ++ [updateRowAt ci result row])) acc = .ok out →
      (∀ r ∈ acc, r.values.length = titles.length) →
      (∀ r ∈ rows, r.values.length = titles.length) →
      ∀ r ∈ out, r.values.length = titles.length := by
  intro rows
  induction rows with
  | nil =>
    intro acc out h hacc _ r hr
    injection h with h2
    subst h2
    exact hacc r hr
  | cons row rest ih =>
    intro acc out h hacc hrows r hr
    rw [List.foldlM_cons] at h
    cases hev : e.eval env titles row.values with
    | error err =>
      rw [hev] at h
      simp only [exceptBind_err] at h
      cases h
    | ok result =>
      rw [hev] at h
      simp only [exceptBind_ok, exceptPure_bind] at h
      refine ih (acc ++ [updateRowAt ci result row]) out h ?_
        (fun r' hr' => hrows r' (List.mem_cons_of_mem row hr')) r hr
      intro r2 hr2
      rcases List.mem_append.mp hr2 with h1 | h1
      · exact hacc r2 h1
      · rcases List.mem_singleton.mp h1 with rfl
        exact updateRowAt_length ci result row titles.length hci
          (hrows row (List.mem_cons_self _ _))

theorem aggExprStep_parity (env : Environment) (titles : List String)
    (alias_table : List (String × String)) :
    ∀ (g : GQLGroup) (p : String × AggregateValue) (g' : GQLGroup),
      aggExprStep env titles alias_table g p = .ok g' →
      (∀ r ∈ g.rows, r.values.length = titles.length) →
      (∀ r ∈ g'.rows, r.values.length = titles.length) := by
  intro g p g' h hp
  unfold aggExprStep at h
  rcases p with ⟨name, av⟩
  cases av with
  | function fname argument =>
    injection h with h2
    subst h2
    exact hp
  | expression e =>
    dsimp only at h
    cases hidx : aIdxOf? (get_column_name alias_table name) titles with
    | none =>
      rw [hidx] at h
      cases h
    | some ci =>
      rw [hidx] at h
      dsimp only at h
      cases hfold : g.rows.foldlM (fun acc row => do
          let result ← e.eval env titles row.values
          pure (acc ++ [updateRowAt ci result row])) ([] : List Row) with
      | error err =>
        rw [hfold] at h
        simp only [exceptBind_err] at h
        cases h
      | ok newRows =>
        rw [hfold] at h
        simp only [exceptBind_ok] at h
        injection h with h2
        subst h2
        exact aggExprFold_parity env titles e ci
          (aIdxOf?_lt_length _ _ _ hidx) g.rows [] newRows hfold
          (by simp) hp

theorem aggregateGroup_parity (env : Environment)
    (aggs : List (String × AggregateValue))
    (alias_table : List (String × String)) (titles : List String)
    (gcount : Nat) (group g' : GQLGroup)
    (h : aggregateGroup env aggs alias_table titles gcount group = .ok g')
    (hp : ∀ r ∈ group.rows, r.values.length = titles.length) :
    ∀ r ∈ g'.rows, r.values.length = titles.length := by
  unfold aggregateGroup at h
  by_cases hempty : group.rows.isEmpty
  · rw [if_pos hempty] at h
    injection h with h2
    subst h2
    exact hp
  · rw [if_neg hempty] at h
    cases h1 : aggs.foldlM (aggFnStep titles alias_table) group with
    | error e =>
      rw [h1] at h
      simp only [exceptBind_err] at h
      cases h
    | ok g1 =>
      rw [h1] at h
      simp only [exceptBind_ok] at h
      cases h2 : aggs.foldlM (aggExprStep env titles alias_table) g1 with
      | error e =>
        rw [h2] at h
        simp only [exceptBind_err] at h
        cases h
      | ok g2 =>
        rw [h2] at h
        simp only [exceptBind_ok] at h
        have hp1 := foldlM_preserve
          (fun g => ∀ r ∈ g.rows, r.values.length = titles.length)
          (aggFnStep titles alias_table) (aggFnStep_parity titles alias_table)
          aggs group g1 h1 hp
        have hp2 := foldlM_preserve
          (fun g => ∀ r ∈ g.rows, r.values.length = titles.length)
          (aggExprStep env titles alias_table)
          (aggExprStep_parity env titles alias_table) aggs g1 g2 h2 hp1
        by_cases hgc : gcount > 1
        · rw [if_pos hgc] at h
          injection h with h3
          subst h3
          intro r hr
          exact hp2 r (List.mem_of_mem_take hr)
        · rw [if_neg hgc] at h
          injection h with h3
          subst h3
          exact hp2

theorem rowsParity_aggregation (env : Environment)
    (aggs : List (String × AggregateValue))
    (alias_table : List (String × String)) (obj obj' : GitQLObject)
    (h : execute_aggregation_function_statement env aggs alias_table obj
      = .ok obj')
    (hp : rowsParity obj) : rowsParity obj' := by
  unfold execute_aggregation_function_statement at h
  by_cases hempty : aggs.isEmpty
  · rw [if_pos hempty] at h
    injection h with h2
    subst h2
    exact hp
  · rw [if_neg hempty] at h
    cases hfold : obj.groups.foldlM (fun acc group => do
        let g' ← aggregateGroup env aggs alias_table obj.titles
          obj.groups.length group
        pure (acc ++ [g'])) ([] : List GQLGroup) with
    | error e =>
      rw [hfold] at h
      simp only [exceptBind_err] at h
      cases h
    | ok newGroups =>
      rw [hfold] at h
      simp only [exceptBind_ok] at h
      injection h with h2
      subst h2
      intro g' hg' r hr
      refine foldlM_snoc_forall
        (aggregateGroup env aggs alias_table obj.titles obj.groups.length)
        (fun g => ∀ r ∈ g.rows, r.values.length = obj.titles.length)
        obj.groups [] newGroups hfold (by simp) ?_ g' hg' r hr
      intro group hgroup g2 hg2
      exact aggregateGroup_parity env aggs alias_table obj.titles
        obj.groups.length group g2 hg2 (hp group hgroup)

theorem rowsParity_of_select_result (T F : List String)
    (res : Except String (List Row))
    (hlen : ∀ rows, res = .ok rows → ∀ r ∈ rows, r.values.length = F.length)
    (hT : T.length = F.length) (obj' : GitQLObject)
    (h : (res >>= fun rows =>
        (pure ⟨T, [⟨rows⟩]⟩ : Except String GitQLObject)) = .ok obj') :
    rowsParity obj' := by
  cases hres : res with
  | error e =>
    rw [hres] at h
    simp only [exceptBind_err] at h
    cases h
  | ok rows =>
    rw [hres] at h
    simp only [exceptBind_ok] at h
    injection h with h2
    subst h2
    intro g hg r hr
    rcases List.mem_singleton.mp hg with rfl
    rw [show (⟨T, [⟨rows⟩]⟩ : GitQLObject).titles = T from rfl, hT]
    exact hlen rows hres r hr

theorem execute_select_parity_empty (env : Environment) (source : RowSource)
    (hsrc : ∀ env' tbl fields titles vals idx rows,
      source env' tbl fields titles vals idx = .ok rows →
      ∀ r ∈ rows, r.values.length = fields.length)
    (repoIdx : Nat) (st : SelectStatement) (hidden : List String)
    (obj' : GitQLObject)
    (h : execute_select_statement env source repoIdx st hidden ⟨[], []⟩
      = .ok obj') : rowsParity obj' := by
  unfold execute_select_statement at h
  dsimp only at h
  refine rowsParity_of_select_result _ (selectFieldsNames st hidden) _
    ?_ (by simp) obj' h
  intro rows hrows r hr
  exact hsrc _ _ _ _ _ _ rows hrows r hr

theorem distinctLoop_subset (O : ExternalOps) (tcount : Nat) :
    ∀ (rows : List Row) (seen : List (List String)) (accRows out : List Row),
      distinctLoop O tcount rows seen accRows = .ok out →
      ∀ r ∈ out, r ∈ accRows ∨ r ∈ rows := by
  intro rows
  induction rows with
  | nil =>
    intro seen accRows out h r hr
    injection h with h2
    subst h2
    exact Or.inl hr
  | cons row rest ih =>
    intro seen accRows out h r hr
    unfold distinctLoop at h
    cases hcells : (List.range tcount).mapM
        (fun idx => row.values[idx]?) with
    | none =>
      rw [hcells] at h
      cases h
    | some vals =>
      rw [hcells] at h
      dsimp only at h
      by_cases hseen : seen.contains (vals.map (Value.display O))
      · rw [if_pos hseen] at h
        rcases ih _ _ out h r hr with h1 | h1
        · exact Or.inl h1
        · exact Or.inr (List.mem_cons_of_mem row h1)
      · rw [if_neg hseen] at h
        rcases ih _ _ out h r hr with h1 | h1
        · rcases List.mem_append.mp h1 with h2 | h2
          · exact Or.inl h2
          · rcases List.mem_singleton.mp h2 with rfl
            exact Or.inr (List.mem_cons_self _ _)
        · exact Or.inr (List.mem_cons_of_mem row h1)

theorem rowsParity_distinct (O : ExternalOps) (hidden : List String)
    (obj obj' : GitQLObject)
    (h : apply_distinct_on_objects_group O hidden obj = .ok obj')
    (hp : rowsParity obj) : rowsParity obj' := by
  unfold apply_distinct_on_objects_group at h
  rcases obj with ⟨t, gs⟩
  cases gs with
  | nil =>
    injection h with h2
    subst h2
    exact hp
  | cons g0 rest =>
    dsimp only at h
    cases hloop : distinctLoop O
        (t.filter fun s => !hidden.contains s).length g0.rows [] [] with
    | error e =>
      rw [hloop] at h
      simp only [exceptBind_err] at h
      cases h
    | ok newRows =>
      rw [hloop] at h
      simp only [exceptBind_ok] at h
      by_cases hne : g0.rows.length ≠ newRows.length
      · rw [if_pos hne] at h
        injection h with h2
        subst h2
        intro g' hg' r hr
        rcases List.mem_cons.mp hg' with rfl | hg'
        · rcases distinctLoop_subset O _ g0.rows [] [] newRows hloop r hr
            with hc | hc
          · simp at hc
          · exact hp g0 (List.mem_cons_self _ _) r hc
        · exact hp g' (List.mem_cons_of_mem _ hg') r hr
      · rw [if_neg hne] at h
        injection h with h2
        subst h2
        exact hp

theorem rowsParity_collapse (q : GQLQuery) (obj : GitQLObject)
    (hp : rowsParity obj) : rowsParity (collapseGroups q obj) := by
  have hmap : rowsParity ⟨obj.titles, obj.groups.map fun g =>
      if g.rows.length > 1 then ⟨g.rows.take 1⟩ else g⟩ := by
    intro g' hg' r hr
    rcases List.mem_map.mp hg' with ⟨g0, hg0, rfl⟩
    by_cases hgl : g0.rows.length > 1
    · rw [if_pos hgl] at hr
      exact hp g0 hg0 r (List.mem_of_mem_take hr)
    · rw [if_neg hgl] at hr
      exact hp g0 hg0 r hr
  unfold collapseGroups
  split
  · exact hmap
  · split
    · exact hmap
    · exact hp

theorem rowsParity_offset (k : Nat) (obj : GitQLObject)
    (hp : rowsParity obj) :
    rowsParity (execute_offset_statement k obj) := by
  refine rowsParity_withMainGroup _ ?_ obj hp
  intro rows r hr
  exact List.mem_of_mem_drop hr

theorem rowsParity_limit (n : Nat) (obj : GitQLObject)
    (hp : rowsParity obj) :
    rowsParity (execute_limit_statement n obj) := by
  refine rowsParity_withMainGroup _ ?_ obj hp
  intro rows r hr
  by_cases hl : n ≤ rows.length
  · rw [if_pos hl] at hr
    exact List.mem_of_mem_take hr
  · rw [if_neg hl] at hr
    exact hr

theorem applyStage_parity {α : Type}
    (f : α → GitQLObject → Except String GitQLObject)
    (hf : ∀ a obj obj', f a obj = .ok obj' →
      rowsParity obj → rowsParity obj') :
    ∀ (o : Option α) (obj obj' : GitQLObject),
      applyStage f o obj = .ok obj' → rowsParity obj → rowsParity obj' := by
  intro o obj obj' h hp
  cases o with
  | none =>
    injection h with h2
    subst h2
    exact hp
  | some a => exact hf a obj obj' h hp

theorem runSelectPhase_parity (O : ExternalOps) (env : Environment)
    (source : RowSource) (q : GQLQuery)
    (hsrc : ∀ env' tbl fields titles vals idx rows,
      source env' tbl fields titles vals idx = .ok rows →
      ∀ r ∈ rows, r.values.length = fields.length)
    (obj1 : GitQLObject) (aliasT : List (String × String))
    (earlyDone : Bool)
    (h : runSelectPhase O env source 1 q = .ok (obj1, aliasT, earlyDone)) :
    rowsParity obj1 := by
  unfold runSelectPhase at h
  cases hsel : q.select with
  | none =>
    rw [hsel] at h
    injection h with h2
    rw [show obj1 = (⟨[], []⟩ : GitQLObject) from
      congrArg Prod.fst h2.symm]
    intro g hg r hr
    simp at hg
  | some st =>
    rw [hsel] at h
    dsimp only at h
    by_cases htbl : st.table_name = ""
    · rw [if_pos htbl] at h
      cases hexec : execute_select_statement env source 0 st
          q.hidden_selections ⟨[], []⟩ with
      | error e =>
        rw [hexec] at h
        simp only [exceptBind_err] at h
        cases h
      | ok obj =>
        rw [hexec] at h
        simp only [exceptBind_ok] at h
        have hpar := execute_select_parity_empty env source hsrc 0 st
          q.hidden_selections obj hexec
        by_cases hchk : obj.groups.isEmpty
            || (obj.groups.headD ⟨[]⟩).rows.isEmpty
        · rw [if_pos hchk] at h
          injection h with h2
          rw [show obj1 = obj from congrArg Prod.fst h2.symm]
          exact hpar
        · rw [if_neg hchk] at h
          injection h with h2
          rw [show obj1 = obj from congrArg Prod.fst h2.symm]
          exact hpar
    · rw [if_neg htbl] at h
      rw [show List.range 1 = [0] from rfl, List.foldlM_cons] at h
      cases hexec : execute_select_statement env source 0 st
          q.hidden_selections ⟨[], []⟩ with
      | error e =>
        rw [hexec] at h
        simp only [exceptBind_err] at h
        cases h
      | ok obj =>
        rw [hexec] at h
        simp only [exceptBind_ok, List.foldlM_nil, exceptPure_bind] at h
        have hpar := execute_select_parity_empty env source hsrc 0 st
          q.hidden_selections obj hexec
        by_cases hchk : obj.groups.isEmpty
            || (obj.groups.headD ⟨[]⟩).rows.isEmpty
        · rw [if_pos hchk] at h
          injection h with h2
          rw [show obj1 = obj from congrArg Prod.fst h2.symm]
          exact hpar
        · rw [if_neg hchk] at h
          by_cases hdist : st.is_distinct
          · rw [if_pos hdist] at h
            cases hd : apply_distinct_on_objects_group O
                q.hidden_selections obj with
            | error e =>
              rw [hd] at h
              simp only [exceptBind_err] at h
              cases h
            | ok obj2 =>
              rw [hd] at h
              simp only [exceptBind_ok] at h
              injection h with h2
              rw [show obj1 = obj2 from congrArg Prod.fst h2.symm]
              exact rowsParity_distinct O q.hidden_selections obj obj2 hd
                hpar
          · rw [if_neg hdist] at h
            injection h with h2
            rw [show obj1 = obj from congrArg Prod.fst h2.symm]
            exact hpar

/-- C1 (amended): for a single-repository execution (and assuming the row
source returns rows whose length equals the number of requested field
names), every row in every group of a successful `evaluate_select_query`
satisfies `len(values) = len(titles)`, through filtering, grouping,
aggregation fill-in, ordering, pagination, distinct and the post-group
row collapse.  (With two or more repositories the claim fails: titles are
pushed once per repository — see `C1_counterexample`.) -/
theorem C1_titles_rows_parity (O : ExternalOps) (env : Environment)
    (source : RowSource) (q : GQLQuery) (res : GitQLObject)
    (hsrc : ∀ env' tbl fields titles vals idx rows,
      source env' tbl fields titles vals idx = .ok rows →
      ∀ r ∈ rows, r.values.length = fields.length)
    (h : evaluate_select_query O env source 1 q = .ok res) :
    rowsParity res := by
  unfold evaluate_select_query at h
  rw [if_neg (by decide)] at h
  cases hphase : runSelectPhase O env source 1 q with
  | error e =>
    rw [hphase] at h
    simp only [exceptBind_err] at h
    cases h
  | ok trip =>
    obtain ⟨obj1, aliasT, earlyDone⟩ := trip
    rw [hphase] at h
    simp only [exceptBind_ok] at h
    have hp1 : rowsParity obj1 :=
      runSelectPhase_parity O env source q hsrc obj1 aliasT earlyDone
        hphase
    cases earlyDone with
    | true =>
      rw [if_pos rfl] at h
      injection h with h2
      subst h2
      exact hp1
    | false =>
      rw [if_neg (by simp)] at h
      cases h2 : applyStage (execute_where_statement env) q.whereCond
          obj1 with
      | error e =>
        rw [h2] at h
        simp only [exceptBind_err] at h
        cases h
      | ok obj2 =>
        rw [h2] at h
        simp only [exceptBind_ok] at h
        have hp2 := applyStage_parity _ (rowsParity_where env) q.whereCond
          obj1 obj2 h2 hp1
        cases h3 : applyStage execute_group_by_statement q.groupBy
            obj2 with
        | error e =>
          rw [h3] at h
          simp only [exceptBind_err] at h
          cases h
        | ok obj3 =>
          rw [h3] at h
          simp only [exceptBind_ok] at h
          have hp3 := applyStage_parity _ rowsParity_groupBy q.groupBy
            obj2 obj3 h3 hp2
          cases h4 : applyStage
              (fun aggs =>
                execute_aggregation_function_statement env aggs aliasT)
              q.aggregation obj3 with
          | error e =>
            rw [h4] at h
            simp only [exceptBind_err] at h
            cases h
          | ok obj4 =>
            rw [h4] at h
            simp only [exceptBind_ok] at h
            have hp4 := applyStage_parity _
              (fun aggs obj obj' hh hp =>
                rowsParity_aggregation env aggs aliasT obj obj' hh hp)
              q.aggregation obj3 obj4 h4 hp3
            cases h5 : applyStage (execute_having_statement env) q.having
                obj4 with
            | error e =>
              rw [h5] at h
              simp only [exceptBind_err] at h
              cases h
            | ok obj5 =>
              rw [h5] at h
              simp only [exceptBind_ok] at h
              have hp5 := applyStage_parity _ (rowsParity_having env)
                q.having obj4 obj5 h5 hp4
              cases h6 : applyStage (execute_order_by_statement env)
                  q.orderBy obj5 with
              | error e =>
                rw [h6] at h
                simp only [exceptBind_err] at h
                cases h
              | ok obj6 =>
                rw [h6] at h
                simp only [exceptBind_ok] at h
                have hp6 := applyStage_parity _
                  (rowsParity_orderBy env) q.orderBy obj5 obj6 h6 hp5
                cases h7 : applyStage
                    (fun k obj => .ok (execute_offset_statement k obj))
                    q.offset obj6 with
                | error e =>
                  rw [h7] at h
                  simp only [exceptBind_err] at h
                  cases h
                | ok obj7 =>
                  rw [h7] at h
                  simp only [exceptBind_ok] at h
                  have hp7 := applyStage_parity _
                    (fun k obj obj' hh hp => by
                      injection hh with hh2
                      subst hh2
                      exact rowsParity_offset k obj hp)
                    q.offset obj6 obj7 h7 hp6
                  cases h8 : applyStage
                      (fun n obj => .ok (execute_limit_statement n obj))
                      q.limit obj7 with
                  | error e =>
                    rw [h8] at h
                    simp only [exceptBind_err] at h
                    cases h
                  | ok obj8 =>
                    rw [h8] at h
                    simp only [exceptBind_ok] at h
                    have hp8 := applyStage_parity _
                      (fun n obj obj' hh hp => by
                        injection hh with hh2
                        subst hh2
                        exact rowsParity_limit n obj hp)
                      q.limit obj7 obj8 h8 hp7
                    injection h with h9
                    subst h9
                    exact rowsParity_collapse q obj8 hp8

/-- Witness for C1: the single-repository evaluation of
`SELECT a FROM t` over the one-row source satisfies parity. -/
theorem C1_titles_rows_parity_witness :
    rowsParity ⟨["a"], [⟨[⟨[.Integer 1]⟩]⟩]⟩ :=
  C1_titles_rows_parity trivialOps emptyEnv sourceOneIntPerField qSelectA
    ⟨["a"], [⟨[⟨[.Integer 1]⟩]⟩]⟩
    (by
      intro env tbl fields titles vals idx rows h r hr
      injection h with h2
      subst h2
      rcases List.mem_singleton.mp hr with rfl
      simp)
    (by rfl)
